import Mathlib

/-!
Verification of `release/template_release.py` (Dataflow template release tool).

The Python program orchestrates a two-stage release pipeline over an abstract
hierarchical file store (`gfile`): a STAGING step that runs an external build
process per template and writes metadata, and a PRODUCTION step that copies a
staged release tree to a versioned production path and a `latest` path.

Shallow-embedding conventions used throughout this file:

* Paths of the abstract store are component lists (`Path := List String`);
  `os.path.join(p, name)` on store paths becomes `p ++ [name]`.  Bucket roots
  (e.g. a `gs://bucket` string) are treated as a single opaque root component.
  Where the Python code uses a joined path as a command-line *string* we render
  the component list with `/` separators, matching `os.path.join` on
  slash-free components.
* The store itself (`FS`) is an insertion-ordered association list from paths
  to nodes (`file content` or `dir`), supporting the capability interface the
  code relies on: `ListDirectory`, `IsDirectory`, `Exists`, `MkDir`, `Copy`,
  `Remove`, and plain file writes.  `MkDir` on an existing directory is a
  no-op, on an existing file a storage error; `Copy` without overwrite fails if
  the destination exists; listing order is the order of first appearance.
* `logging.fatal` (absl-style: terminates the process) and storage errors are
  modelled with `Except`; the `fatal` error carries the store state at the
  moment of termination, so "no side effects happened" is expressed by the
  carried state being the unchanged input store.
* The external build process (`subprocess.run`) is an oracle
  `List String → ProcOutcome` passed in as a parameter; raising, timing out,
  and exiting with a code are its three outcomes.
* Process-visible actions (subprocess launches, metadata writes) are also
  recorded in an event trace so ordering claims can be stated.
* `json.dumps` on string pairs, `str.lower`, `str.replace`, and sorting are
  embedded as executable Lean functions mirroring the Python semantics
  (`ensure_ascii` JSON escaping, code-point comparisons, stable sort,
  leftmost non-overlapping replacement).
* The protobuf serializer `json_format.MessageToJson` is opaque to every
  claim; template metadata blobs are opaque strings written verbatim, and the
  categories document is produced by an explicit injective encoder.
-/

namespace TemplateRelease

/-- A path in the abstract hierarchical store, as a list of components. -/
abbrev Path := List String

/-- A node of the store: a regular file with contents, or a directory. -/
inductive Node
  | file (content : String)
  | dir
deriving DecidableEq, Repr

/-- The abstract hierarchical file store backing `gfile`: an insertion-ordered
association list from paths to nodes. -/
structure FS where
  entries : List (Path × Node)
deriving DecidableEq, Repr

/-- First-match lookup in the entry list. -/
def lookupEntries : List (Path × Node) → Path → Option Node
  | [], _ => none
  | e :: es, p => if e.1 = p then some e.2 else lookupEntries es p

/-- Whether a key is present in the entry list. -/
def hasKey : List (Path × Node) → Path → Bool
  | [], _ => false
  | e :: es, p => if e.1 = p then true else hasKey es p

/-- Replace the node stored at a key, keeping entry order. -/
def replaceEntries : List (Path × Node) → Path → Node → List (Path × Node)
  | [], _, _ => []
  | e :: es, p, n => if e.1 = p then (p, n) :: replaceEntries es p n else e :: replaceEntries es p n

/-- Node stored at a path, if any. -/
def FS.lookup (fs : FS) (p : Path) : Option Node :=
  lookupEntries fs.entries p

/-- `gfile.Exists`: the path is present in the store. -/
def FS.pathExists (fs : FS) (p : Path) : Bool :=
  (fs.lookup p).isSome

/-- `gfile.IsDirectory`: the path is present and is a directory. -/
def FS.isDirectory (fs : FS) (p : Path) : Bool :=
  match fs.lookup p with
  | some .dir => true
  | _ => false

/-- Write a node at a path: replace in place when the key exists (keeping its
position), otherwise append at the end. -/
def FS.set (fs : FS) (p : Path) (n : Node) : FS :=
  if hasKey fs.entries p then ⟨replaceEntries fs.entries p n⟩ else ⟨fs.entries ++ [(p, n)]⟩

/-- The name of `q` as a direct child of `p`, if it is one. -/
def childOf (p q : Path) : Option String :=
  if q.dropLast = p then q.getLast? else none

/-- `gfile.ListDirectory`: names of the direct children of `p`, in the order
the store lists them (order of first appearance of their keys). -/
def FS.listDirectory (fs : FS) (p : Path) : List String :=
  (fs.entries.map Prod.fst).filterMap (childOf p)

/-- `gfile.Remove`: drop the entry at a path. -/
def FS.remove (fs : FS) (p : Path) : FS :=
  ⟨fs.entries.filter (fun e => decide (e.1 ≠ p))⟩

/-- Errors that can end a run of the tool: a `logging.fatal` process abort
(carrying the store state at the moment of termination), a storage-layer
error (`GOSError`), running out of recursion fuel, and an uncaught Python
`KeyError`. -/
inductive Err
  | fatal (fs : FS)
  | gos
  | fuelOut
  | keyError
deriving DecidableEq, Repr

/-- `gfile.MkDir`: create a directory if the path is absent; a no-op when a
directory already exists there; a storage error when a file is in the way. -/
def FS.mkDir (fs : FS) (p : Path) : Except Err FS :=
  match fs.lookup p with
  | none => .ok (fs.set p .dir)
  | some .dir => .ok fs
  | some (.file _) => .error .gos

/-- `gfile.Copy(src, dst, overwrite)`: copy one file; without overwrite the
copy fails when the destination exists; copying a non-file is a storage
error. -/
def FS.copy (fs : FS) (src dst : Path) (overwrite : Bool) : Except Err FS :=
  match fs.lookup src with
  | some (.file c) =>
      if fs.pathExists dst ∧ ¬overwrite then .error .gos
      else .ok (fs.set dst (.file c))
  | _ => .error .gos

/-- Keys of the store, in listing order. -/
def FS.keys (fs : FS) : List Path :=
  fs.entries.map Prod.fst

/-- The store never maps one path to two nodes. -/
def NodupKeys (fs : FS) : Prop :=
  fs.keys.Nodup

/-- `STAGING_RELEASE_NAME`. -/
def STAGING_RELEASE_NAME : String := "STAGING"

/-- `PRODUCTION_RELEASE_NAME`. -/
def PRODUCTION_RELEASE_NAME : String := "PROD"

/-- `JAVA_BIN_PATH`. -/
def JAVA_BIN_PATH : String := "java"

/-- `LATEST_FOLDER_NAME`. -/
def LATEST_FOLDER_NAME : String := "latest"

/-- `TELEPORT_LABEL_KEY_TEMPLATE_NAME`. -/
def TELEPORT_LABEL_KEY_TEMPLATE_NAME : String := "goog-dataflow-provided-template-name"

/-- `TELEPORT_LABEL_KEY_TEMPLATE_VERSION`. -/
def TELEPORT_LABEL_KEY_TEMPLATE_VERSION : String := "goog-dataflow-provided-template-version"

/-- The components of `CATEGORIES_CONFIG_FILE_NAME = 'ui_metadata/categories.json'`,
as joined under the release root by `os.path.join`. -/
def CATEGORIES_CONFIG_FILE_COMPONENTS : Path := ["ui_metadata", "categories.json"]

/-- `TELEPORT_PACKAGES_PER_BEAM_VERSION`, a one-entry static lookup table. -/
def TELEPORT_PACKAGES_PER_BEAM_VERSION : String → Option String := fun v =>
  if v = "live" then some "target/google-cloud-teleport-java-0.1-SNAPSHOT.jar" else none

/-- The command-line flags of the program (validated, immutable for a run),
plus the ambient script location `base_dir` (Python's
`os.path.dirname(os.path.dirname(os.path.abspath(__file__)))`). -/
structure Flags where
  template_prod_bucket : String
  template_staging_bucket : String
  library_staging_bucket : String
  project : String
  candidate_name : String
  release_name : String
  metadata_dir_override : String
  include_hidden : Bool
  release_type : String
  base_dir : String
deriving DecidableEq, Repr

/-- The character list of the pattern `'gs://'`. -/
def gsPat : List Char := ['g', 's', ':', '/', '/']

/-- The character list of the replacement `'/bigstore/'`. -/
def bigstoreRepl : List Char := ['/', 'b', 'i', 'g', 's', 't', 'o', 'r', 'e', '/']

/-- Python `s.replace('gs://', '/bigstore/')`: leftmost, non-overlapping
replacement of every occurrence. -/
def replaceGsBig : List Char → List Char
  | [] => []
  | c :: cs =>
      if gsPat.isPrefixOf (c :: cs) then bigstoreRepl ++ replaceGsBig (cs.drop 4)
      else c :: replaceGsBig cs
termination_by s => s.length
decreasing_by
  all_goals simp_wf
  all_goals omega

/-- Python `s.startswith('gs://')`, on the character list. -/
def startsWithGs (s : List Char) : Bool :=
  gsPat.isPrefixOf s

/-- `gcs_to_bigstore_path`: raises `ValueError` unless the path starts with
`gs://`; otherwise returns the path with `gs://` replaced by `/bigstore/`. -/
def gcs_to_bigstore_path (gs_path : String) : Except String String :=
  if startsWithGs gs_path.data then .ok ⟨replaceGsBig gs_path.data⟩
  else .error "ValueError: Path must start with gs://"

/-- No occurrence of `gs://` anywhere in the character list. -/
def NoGsOcc (s : List Char) : Prop :=
  ∀ i ≤ s.length, ¬ gsPat.isPrefixOf (s.drop i) = true

/-- One pass of `CopyRecursively` over a list of directory entries; `rec` is
the recursive call (fuel-indexed at the outer level).  For each entry in
order: a directory is `MkDir`-ed at the destination and recursed into, a file
is copied honoring `overwrite`. -/
def copyEntries (rec : FS → Path → Path → Bool → Except Err FS)
    (src dst : Path) (overwrite : Bool) : FS → List String → Except Err FS
  | fs, [] => .ok fs
  | fs, entry :: es => do
      let src_path := src ++ [entry]
      let dst_path := dst ++ [entry]
      let fs' ←
        if fs.isDirectory src_path then do
          let fs1 ← fs.mkDir dst_path
          rec fs1 src_path dst_path overwrite
        else fs.copy src_path dst_path overwrite
      copyEntries rec src dst overwrite fs' es

/-- `CopyRecursively(src, dst, overwrite)`: mirror the `src` tree under `dst`,
directory entries first `MkDir`-ed then recursed into, files copied honoring
`overwrite`.  The Python recursion reads the live store; in the embedding the
recursion depth is bounded by an explicit fuel, which exceeding the real
recursion depth never runs out (see the fuel lemmas below). -/
def CopyRecursively : Nat → FS → Path → Path → Bool → Except Err FS
  | 0, _, _, _, _ => .error .fuelOut
  | fuel + 1, fs, src, dst, overwrite =>
      copyEntries (CopyRecursively fuel) src dst overwrite fs (fs.listDirectory src)

/-- `write_production`: fatally abort unless the staging candidate directory
exists as a directory; fatally abort when the production release directory
already exists as a directory; otherwise create the release directory, copy
the staging tree into it without overwrite, ensure `latest` exists as a
directory (removing a non-directory in the way), and copy the staging tree
into `latest` with overwrite. -/
def write_production (fuel : Nat) (flags : Flags) (fs : FS) : Except Err FS :=
  let prod_root : Path := [flags.template_prod_bucket]
  let template_staging_root : Path := [flags.template_staging_bucket]
  let template_dir := template_staging_root ++ [flags.candidate_name]
  if ¬ fs.isDirectory template_dir then .error (.fatal fs)
  else
    let release_dir := prod_root ++ [flags.release_name]
    if fs.isDirectory release_dir then .error (.fatal fs)
    else do
      let fs1 ← fs.mkDir release_dir
      let fs2 ← CopyRecursively fuel fs1 template_dir release_dir false
      let latest_dir := prod_root ++ [LATEST_FOLDER_NAME]
      let fs3 ←
        if fs2.pathExists latest_dir then
          if ¬ fs2.isDirectory latest_dir then (fs2.remove latest_dir).mkDir latest_dir
          else .ok fs2
        else fs2.mkDir latest_dir
      CopyRecursively fuel fs3 template_dir latest_dir true

/-- Python string `<` on character lists: lexicographic by code point.
Explicitly structural, so the kernel can evaluate sorted commands. -/
def strLtB : List Char → List Char → Bool
  | [], [] => false
  | [], _ :: _ => true
  | _ :: _, [] => false
  | a :: as, b :: bs =>
      if a.toNat < b.toNat then true
      else if b.toNat < a.toNat then false
      else strLtB as bs

/-- Python string `<` (lexicographic by code point). -/
def strLt (a b : String) : Prop :=
  strLtB a.data b.data = true

instance : DecidableRel strLt := fun a b => by
  unfold strLt; infer_instance

/-- Python tuple `≤` on `(key, value)` string pairs, as used by
`sorted(args.items())`: lexicographic by key, then by value. -/
def pairLe (a b : String × String) : Prop :=
  (if strLtB a.1.data b.1.data then true
   else if strLtB b.1.data a.1.data then false
   else ! strLtB b.2.data a.2.data) = true

instance : DecidableRel pairLe := fun a b => by
  unfold pairLe; infer_instance

/-- `sorted(args.items())`: a stable sort of the key-value pairs under Python
tuple comparison. -/
def sortedItems (args : List (String × String)) : List (String × String) :=
  List.insertionSort pairLe args

/-- `build_cmd(packages, main_class, args)`: the java invocation
`[java, '-cp', ':'.join(packages), main_class]` followed by one
`--key=value` token per argument, sorted. -/
def build_cmd (packages : List String) (main_class : String)
    (args : List (String × String)) : List String :=
  let args_segments := (sortedItems args).map (fun kv => "--" ++ kv.1 ++ "=" ++ kv.2)
  [JAVA_BIN_PATH, "-cp", String.intercalate ":" packages, main_class] ++ args_segments

/-- One hexadecimal digit (lowercase), for `\uXXXX` escapes. -/
def hexDigitChar (n : Nat) : Char :=
  if n < 10 then Char.ofNat (48 + n) else Char.ofNat (87 + n)

/-- Four-digit lowercase hexadecimal rendering of a code unit. -/
def hex4 (n : Nat) : List Char :=
  [hexDigitChar (n / 4096 % 16), hexDigitChar (n / 256 % 16),
   hexDigitChar (n / 16 % 16), hexDigitChar (n % 16)]

/-- `json.dumps` escaping of one character (default `ensure_ascii=True`):
short escapes for quote, backslash and common controls, `\uXXXX` for other
controls and all non-ASCII (surrogate pairs beyond the BMP), the character
itself otherwise. -/
def jsonEscapeChar (c : Char) : List Char :=
  if c = '"' then ['\\', '"']
  else if c = '\\' then ['\\', '\\']
  else if c = '\n' then ['\\', 'n']
  else if c = '\t' then ['\\', 't']
  else if c = '\r' then ['\\', 'r']
  else if c = Char.ofNat 8 then ['\\', 'b']
  else if c = Char.ofNat 12 then ['\\', 'f']
  else if c.toNat < 32 then '\\' :: 'u' :: hex4 c.toNat
  else if c.toNat < 127 then [c]
  else if c.toNat < 65536 then '\\' :: 'u' :: hex4 c.toNat
  else
    let m := c.toNat - 65536
    ('\\' :: 'u' :: hex4 (55296 + m / 1024)) ++ ('\\' :: 'u' :: hex4 (56320 + m % 1024))

/-- `json.dumps` escaping of a whole string body. -/
def jsonEscape (s : String) : String :=
  ⟨(s.data.map jsonEscapeChar).flatten⟩

/-- A JSON string literal: quoted escaped body. -/
def jsonStr (s : String) : String :=
  "\"" ++ jsonEscape s ++ "\""

/-- `json.dumps` of an ordered string-to-string mapping with the default
separators (`', '` between items, `': '` between key and value). -/
def jsonDumpsPairs (ps : List (String × String)) : String :=
  "\x7b" ++ String.intercalate ", " (ps.map fun kv => jsonStr kv.1 ++ ": " ++ jsonStr kv.2) ++ "\x7d"

/-- Python `s.replace(' ', '')`: drop every space character. -/
def stripSpaces (s : String) : String :=
  ⟨s.data.filter (fun c => decide (c ≠ ' '))⟩

/-- Python `s.lower()` (ASCII letters; the templates' names are ASCII). -/
def pyLower (s : String) : String :=
  ⟨s.data.map Char.toLower⟩

/-- One entry of a `TemplateReleaseCategory`: a template definition from the
config document.  `metadata` is the opaque structured metadata blob. -/
structure Template where
  name : String
  display_name : String
  main_class : String
  beam_version_override : String
  hidden : Bool
  parameters : List (String × String)
  metadata : String
deriving DecidableEq, Repr

/-- One `TemplateReleaseCategory`: opaque category info plus the ordered
template list. -/
structure Category where
  category : String
  templates : List Template
deriving DecidableEq, Repr

/-- The labels string of `stage_template`:
`json.dumps(OrderedDict([(name_key, name.lower()), (version_key, candidate.lower())])).replace(' ', '')`. -/
def labels_str (templateName candidateName : String) : String :=
  stripSpaces (jsonDumpsPairs
    [(TELEPORT_LABEL_KEY_TEMPLATE_NAME, pyLower templateName),
     (TELEPORT_LABEL_KEY_TEMPLATE_VERSION, pyLower candidateName)])

/-- Python dict lookup on an insertion-ordered association list. -/
def dictGet (d : List (String × String)) (k : String) : Option String :=
  (d.find? (fun kv => decide (kv.1 = k))).map Prod.snd

/-- Python `d[k] = v`: replace the value in place when the key exists,
otherwise append the new binding. -/
def dictSet (d : List (String × String)) (k v : String) : List (String × String) :=
  if d.any (fun kv => decide (kv.1 = k)) then
    d.map (fun kv => if kv.1 = k then (k, v) else kv)
  else d ++ [(k, v)]

/-- Render a store path as the string `os.path.join` would produce on
slash-free components. -/
def Path.render (p : Path) : String :=
  String.intercalate "/" p

/-- The fixed argument dict literal of `stage_template`, in source order. -/
def fixed_args (flags : Flags) (base_destination : Path) (t : Template) : List (String × String) :=
  [("runner", "DataflowRunner"),
   ("project", flags.project),
   ("stagingLocation", Path.render [flags.library_staging_bucket, flags.candidate_name]),
   ("templateLocation", Path.render (base_destination ++ [t.name])),
   ("labels", labels_str t.name flags.candidate_name)]

/-- The full argument dict of `stage_template`: the fixed literal updated by
`args[param.key] = param.value` for each parameter in order. -/
def stage_args (flags : Flags) (base_destination : Path) (t : Template) : List (String × String) :=
  t.parameters.foldl (fun d kv => dictSet d kv.1 kv.2) (fixed_args flags base_destination t)

/-- Outcome of one `subprocess.run` invocation: an exception, a timeout
(`TimeoutExpired`, also an exception in Python), or an exit with a return
code. -/
inductive ProcOutcome
  | exn
  | timeout
  | exits (code : Int)
deriving DecidableEq, Repr

/-- A process-visible action of a staging run: launching the external build
process, or writing a metadata document. -/
inductive Event
  | ran (cmd : List String)
  | wrote (path : Path)
deriving DecidableEq, Repr

/-- Process state during a run: the store plus the trace of visible actions,
in order. -/
structure St where
  fs : FS
  tr : List Event
deriving DecidableEq, Repr

/-- The path `write_metadata` actually writes to: the caller's filename,
unless `metadata_dir_override` is non-empty, in which case the override
directory joined with the last path component of the filename
(`os.path.split(filename)[-1]`). -/
def metadataTarget (flags : Flags) (filename : Path) : Path :=
  if flags.metadata_dir_override ≠ "" then
    [flags.metadata_dir_override, filename.getLastD ""]
  else filename

/-- `write_metadata(filename, metadata)`: serialize the metadata document to
the (possibly override-redirected) target path.  The serializer
`json_format.MessageToJson` is opaque; the caller passes the serialized
document. -/
def write_metadata (flags : Flags) (st : St) (filename : Path) (document : String) : St :=
  let target := metadataTarget flags filename
  { fs := st.fs.set target (.file document), tr := st.tr ++ [.wrote target] }

/-- The categories document built by `write_category_information`: category
info plus each template's name and display name, serialized.  Models the
opaque `MessageToJson(TemplateCategories(...))` output with an explicit
injective encoding. -/
def categoriesJson (cats : List Category) : String :=
  String.intercalate "|" (cats.map fun c =>
    c.category ++ ">" ++ String.intercalate ";" (c.templates.map fun t =>
      t.name ++ "," ++ t.display_name))

/-- `write_category_information(base_destination, categories)`: write the
categories document to `{base_destination}/ui_metadata/categories.json`. -/
def write_category_information (flags : Flags) (st : St) (base_destination : Path)
    (cats : List Category) : St :=
  write_metadata flags st (base_destination ++ CATEGORIES_CONFIG_FILE_COMPONENTS)
    (categoriesJson cats)

/-- The exact command `stage_template` builds for a template (well-formed when
the beam version is in the package table; `stage_template` checks the table
first). -/
def stageCmd (flags : Flags) (base_destination : Path) (t : Template) : List String :=
  let packages :=
    [flags.base_dir ++ "/" ++ (TELEPORT_PACKAGES_PER_BEAM_VERSION t.beam_version_override).getD ""]
  build_cmd packages t.main_class (stage_args flags base_destination t)

/-- `stage_template(base_destination, template)`: build the java invocation,
run it with a bounded timeout, and return `False` on any exception, timeout
or non-zero exit; on success write `{template_location}_metadata` and return
`True`.  An unknown beam version raises `KeyError` before the process runs. -/
def stage_template (runProc : List String → ProcOutcome) (flags : Flags) (st : St)
    (base_destination : Path) (t : Template) : Except Err (Bool × St) :=
  match TELEPORT_PACKAGES_PER_BEAM_VERSION t.beam_version_override with
  | none => .error .keyError
  | some _ =>
      let cmd := stageCmd flags base_destination t
      let st1 : St := { st with tr := st.tr ++ [.ran cmd] }
      match runProc cmd with
      | .exn => .ok (false, st1)
      | .timeout => .ok (false, st1)
      | .exits code =>
          if code ≠ 0 then .ok (false, st1)
          else
            .ok (true, write_metadata flags st1
              (base_destination ++ [t.name ++ "_metadata"]) t.metadata)

/-- `remove_hidden_templates(categories)`: drop every hidden template, then
drop every category left with no templates, keeping order. -/
def remove_hidden_templates : List Category → List Category
  | [] => []
  | c :: cs =>
      let kept := c.templates.filter (fun t => ! t.hidden)
      if kept.isEmpty then remove_hidden_templates cs
      else { category := c.category, templates := kept } :: remove_hidden_templates cs

/-- The hidden-filtering step of `main`: the config is passed through
`remove_hidden_templates` exactly when `include_hidden` is false. -/
def filter_hidden (cats : List Category) (include_hidden : Bool) : List Category :=
  if ¬ include_hidden then remove_hidden_templates cats else cats

/-- Result of the staging loops: completed normally, or `return 1` taken. -/
inductive LoopRes
  | cont (st : St)
  | fail1 (st : St)
deriving DecidableEq, Repr

/-- The inner `for template in category.templates` loop of the STAGING branch
of `main` (over an arbitrary template list): the first template for which
`stage_template` is false takes `return 1`. -/
def templateLoop (runProc : List String → ProcOutcome) (flags : Flags)
    (base_destination : Path) : St → List Template → Except Err LoopRes
  | st, [] => .ok (.cont st)
  | st, t :: ts => do
      let (ok, st') ← stage_template runProc flags st base_destination t
      if ok then templateLoop runProc flags base_destination st' ts
      else .ok (.fail1 st')

/-- The outer `for category in config_categories.categories` loop of the
STAGING branch of `main`. -/
def categoryLoop (runProc : List String → ProcOutcome) (flags : Flags)
    (base_destination : Path) : St → List Category → Except Err LoopRes
  | st, [] => .ok (.cont st)
  | st, c :: cs => do
      let r ← templateLoop runProc flags base_destination st c.templates
      match r with
      | .cont st' => categoryLoop runProc flags base_destination st' cs
      | .fail1 st' => .ok (.fail1 st')

/-- `main`: dispatch on the release type.  PROD runs `write_production`;
STAGING filters hidden templates, writes the categories document once, then
stages each template in config order, returning exit code 1 at the first
failure; any other release type is a fatal flag error.  A `None` return from
the Python `main` is exit code 0 under `app.run`. -/
def main (fuel : Nat) (runProc : List String → ProcOutcome) (flags : Flags)
    (config : List Category) (st : St) : Except Err (Nat × St) :=
  if flags.release_type = PRODUCTION_RELEASE_NAME then
    (write_production fuel flags st.fs).map (fun fs' => (0, ⟨fs', st.tr⟩))
  else if flags.release_type = STAGING_RELEASE_NAME then
    let base_destination : Path := [flags.template_staging_bucket, flags.candidate_name]
    let config_categories := filter_hidden config flags.include_hidden
    let st1 := write_category_information flags st base_destination config_categories
    match categoryLoop runProc flags base_destination st1 config_categories with
    | .error e => .error e
    | .ok (.cont st') => .ok (0, st')
    | .ok (.fail1 st') => .ok (1, st')
  else .error (.fatal st.fs)

/-! ### Hidden-template filtering (C3) -/

/-- Disjoint subtrees: neither root is a prefix of the other (the copy reads
`src` while writing under `dst`, so the two trees must not overlap). -/
def Disj (a b : Path) : Prop :=
  ¬ a <+: b ∧ ¬ b <+: a

instance (a b : Path) : Decidable (Disj a b) := by
  unfold Disj
  infer_instance

/-- The path holds a regular file. -/
def FS.isFile (fs : FS) (p : Path) : Bool :=
  match fs.lookup p with
  | some (.file _) => true
  | _ => false

/-- `rel` (non-empty) leads from `src` through directories to a node `n`. -/
def ReachNode (fs : FS) (src rel : Path) (n : Node) : Prop :=
  rel ≠ [] ∧ fs.lookup (src ++ rel) = some n ∧
  ∀ m (_hm : m < rel.length), 0 < m → fs.lookup (src ++ rel.take m) = some .dir

instance (fs : FS) (src rel : Path) (n : Node) : Decidable (ReachNode fs src rel n) := by
  unfold ReachNode
  infer_instance

/-- No file sits where the copy will have to `MkDir` a directory. -/
def MkCompat (fs : FS) (src dst : Path) : Prop :=
  ∀ rel, fs.isDirectory (src ++ rel) = true → fs.isFile (dst ++ rel) = false

/-- Number of keys strictly below `p` — an upper bound on the recursion depth
of the copy below `p`. -/
def extCount (fs : FS) (p : Path) : Nat :=
  (fs.keys.filter (fun k => decide (p <+: k ∧ k ≠ p))).length

/-- Effects of one tree-copy call are confined below `d`: lookups outside
the strict extensions of `d` are unchanged, new keys are strict extensions
of `d`, and key uniqueness is preserved. -/
def GoodAt (fs : FS) (d : Path) (fs2 : FS) : Prop :=
  (∀ q, ¬(d <+: q ∧ q ≠ d) → fs2.lookup q = fs.lookup q) ∧
  (∃ ex, fs2.keys = fs.keys ++ ex ∧ ∀ q ∈ ex, d <+: q ∧ q ≠ d) ∧
  (NodupKeys fs → NodupKeys fs2)

/-- The region below one of a list of roots. -/
def Below (ds : List Path) (q : Path) : Prop :=
  ∃ d ∈ ds, d <+: q

/-- A recursive-copy implementation mirrors every reachable source node to
the corresponding destination path. -/
def MirrorsAt (rec : FS → Path → Path → Bool → Except Err FS) : Prop :=
  ∀ fs sp dp ow fs2, NodupKeys fs → Disj sp dp → rec fs sp dp ow = .ok fs2 →
    ∀ rel n, ReachNode fs sp rel n → fs2.lookup (dp ++ rel) = some n

/-- A recursive-copy implementation that refuses to overwrite: with
overwrite disabled, a reachable source file whose destination path already
exists makes the call fail. -/
def ClashAt (rec : FS → Path → Path → Bool → Except Err FS) : Prop :=
  ∀ fs sp dp fs2, NodupKeys fs → Disj sp dp →
    ∀ rel c, ReachNode fs sp rel (Node.file c) → fs.pathExists (dp ++ rel) = true →
      rec fs sp dp false ≠ .ok fs2

/-- Every file below `dp` in `g` was already a file of `fs` or mirrors a
source file of `fs` at the matching relative path. -/
def FileProv (fs : FS) (sp dp : Path) (g : FS) : Prop :=
  ∀ rel, g.isFile (dp ++ rel) = true →
    fs.isFile (dp ++ rel) = true ∨ ∃ c, fs.lookup (sp ++ rel) = some (Node.file c)

/-- Loop invariant of the overwriting copy: effects confined below the
destination, and every destination file accounted for. -/
def CopyInv (fs : FS) (src dst : Path) (g : FS) : Prop :=
  GoodAt fs dst g ∧ FileProv fs src dst g

instance (fs : FS) : Decidable (NodupKeys fs) := by
  unfold NodupKeys
  infer_instance

/-- Concrete store for exercising the recursive copy: a source tree with a
file, a subdirectory holding a file, an empty destination directory, and a
second destination already occupied by a file. -/
def c8FS : FS :=
  ⟨[(["s"], .dir), (["s", "a"], .file "x"), (["s", "sub"], .dir),
    (["s", "sub", "b"], .file "y"), (["d"], .dir), (["d2"], .dir),
    (["d2", "a"], .file "old")]⟩

/-- Join segments with a separator (the shape of a string decomposed at its
pattern occurrences). -/
def joinSep (sep : List Char) : List (List Char) → List Char
  | [] => []
  | [s] => s
  | s :: rest => s ++ sep ++ joinSep sep rest

instance (s : List Char) : Decidable (NoGsOcc s) := by
  unfold NoGsOcc; infer_instance

/-- The spec's compact JSON object with exactly two keys: no separator
whitespace anywhere. -/
def compactTwoKeys (k1 v1 k2 v2 : String) : String :=
  "\x7b" ++ jsonStr k1 ++ ":" ++ jsonStr v1 ++ "," ++ jsonStr k2 ++ ":" ++ jsonStr v2 ++ "\x7d"

/-- Concrete flags for the C1 counterexample: a PROD promotion. -/
def c1Flags : Flags :=
  ⟨"gs://prod", "gs://stag", "", "p", "rc", "rel", "", false, "PROD", "/b"⟩

/-- Concrete store for the C1 counterexample: the staging candidate directory
exists and holds a file, and the production release path is occupied by a
regular file (so it exists, but is not a directory). -/
def c1FS : FS :=
  ⟨[(["gs://stag", "rc"], .dir), (["gs://stag", "rc", "t1"], .file "x"),
    (["gs://prod", "rel"], .file "occupied")]⟩

/-- The release root of a STAGING run:
`os.path.join(template_staging_bucket, candidate_name)`. -/
def stagingBase (flags : Flags) : Path :=
  [flags.template_staging_bucket, flags.candidate_name]

/-- All templates of a config, in category order then template order — the
visit order of the staging loops. -/
def flatTemplates (cats : List Category) : List Template :=
  (cats.map (fun c => c.templates)).flatten

/-- The (possibly override-redirected) metadata path for a template name. -/
def metaPathFor (flags : Flags) (base : Path) (templateName : String) : Path :=
  metadataTarget flags (base ++ [templateName ++ "_metadata"])

/-- The visible events of one successfully staged template: the subprocess
launch, then the metadata write. -/
def stageEvents (flags : Flags) (base : Path) (t : Template) : List Event :=
  [.ran (stageCmd flags base t), .wrote (metaPathFor flags base t.name)]

/-- The (possibly override-redirected) categories document path of a run. -/
def catDocPath (flags : Flags) (base : Path) : Path :=
  metadataTarget flags (base ++ CATEGORIES_CONFIG_FILE_COMPONENTS)

/-- Concrete STAGING flags for the C5 witness (no hidden filtering, no
override). -/
def flags5 : Flags := ⟨"", "gs://s", "gs://lib", "p", "rc", "", "", true, "STAGING", "/b"⟩

/-- First witness template: builds successfully. -/
def tmpl1 : Template := ⟨"T1", "T1", "M1", "live", false, [], "m1"⟩

/-- Second witness template: its build exits non-zero. -/
def tmpl2 : Template := ⟨"T2", "T2", "M2", "live", false, [], "m2"⟩

/-- One-category witness config. -/
def config5 : List Category := [⟨"cat", [tmpl1, tmpl2]⟩]

/-- Witness build oracle: the invocation whose main class is `M2` exits 1,
every other invocation exits 0. -/
def runProc5 : List String → ProcOutcome := fun cmd =>
  if cmd[3]? = some "M2" then .exits 1 else .exits 0

/-- `remove_hidden_templates` is the map-then-filter characterization: keep
only unhidden templates in each category, then keep only non-empty
categories, preserving order. -/
theorem remove_hidden_templates_eq (cats : List Category) :
    remove_hidden_templates cats =
      (cats.map (fun c =>
        { category := c.category, templates := c.templates.filter (fun t => ! t.hidden) })).filter
        (fun c => ! c.templates.isEmpty) := by
  induction cats with
  | nil => rfl
  | cons c cs ih =>
      simp only [remove_hidden_templates, List.map_cons, List.filter_cons]
      by_cases h : (c.templates.filter (fun t => ! t.hidden)).isEmpty
      · simp [h, ih]
      · simp only [h, if_neg] at *
        simp [h, ih]

/-- The templates surviving `remove_hidden_templates`, across all categories,
are exactly the unhidden templates, in order. -/
theorem remove_hidden_templates_flatten (cats : List Category) :
    ((remove_hidden_templates cats).map (fun c => c.templates)).flatten =
      ((cats.map (fun c => c.templates)).flatten).filter (fun t => ! t.hidden) := by
  induction cats with
  | nil => rfl
  | cons c cs ih =>
      simp only [remove_hidden_templates, List.map_cons, List.flatten_cons, List.filter_append]
      by_cases h : (c.templates.filter (fun t => ! t.hidden)).isEmpty
      · have he : c.templates.filter (fun t => ! t.hidden) = [] := List.isEmpty_iff.mp h
        simp [h, he, ih]
      · simp [h, ih]

/-- C3: when `include_hidden` is false the filtered config contains exactly
the templates whose hidden flag is false, with categories whose template list
becomes empty omitted and the relative order of surviving categories and
templates preserved (the map-then-filter characterization); when
`include_hidden` is true the config is unchanged. -/
theorem claimC3 (cats : List Category) :
    filter_hidden cats true = cats ∧
    filter_hidden cats false =
      (cats.map (fun c =>
        { category := c.category, templates := c.templates.filter (fun t => ! t.hidden) })).filter
        (fun c => ! c.templates.isEmpty) ∧
    ((filter_hidden cats false).map (fun c => c.templates)).flatten =
      ((cats.map (fun c => c.templates)).flatten).filter (fun t => ! t.hidden) := by
  refine ⟨rfl, ?_, ?_⟩
  · simpa [filter_hidden] using remove_hidden_templates_eq cats
  · simpa [filter_hidden] using remove_hidden_templates_flatten cats

/-! ### Command construction (C2) -/

/-- Code-point comparison is asymmetric. -/
theorem strLtB_asymm : ∀ x y : List Char, strLtB x y = true → strLtB y x = false := by
  intro x
  induction x with
  | nil =>
      intro y h
      cases y with
      | nil => simp [strLtB] at h
      | cons b bs => simp [strLtB]
  | cons a as ih =>
      intro y h
      cases y with
      | nil => simp [strLtB] at h
      | cons b bs =>
          by_cases h1 : a.toNat < b.toNat
          · have h2 : ¬ b.toNat < a.toNat := by omega
            simp [strLtB, h1, h2]
          · by_cases h2 : b.toNat < a.toNat
            · simp [strLtB, h1, h2] at h
            · simp only [strLtB, h1, h2, if_false] at h ⊢
              exact ih bs h

/-- Code-point comparison is irreflexive. -/
theorem strLtB_irrefl : ∀ x : List Char, strLtB x x = false := by
  intro x
  induction x with
  | nil => rfl
  | cons a as ih => simp [strLtB, ih]

/-- Two incomparable lists are equal. -/
theorem strLtB_eq_of_not : ∀ x y : List Char,
    strLtB x y = false → strLtB y x = false → x = y := by
  intro x
  induction x with
  | nil =>
      intro y h1 _
      cases y with
      | nil => rfl
      | cons b bs => simp [strLtB] at h1
  | cons a as ih =>
      intro y h1 h2
      cases y with
      | nil => simp [strLtB] at h2
      | cons b bs =>
          by_cases hab : a.toNat < b.toNat
          · simp [strLtB, hab] at h1
          · by_cases hba : b.toNat < a.toNat
            · simp [strLtB, hba] at h2
            · have hn : a.toNat = b.toNat := by omega
              have hchar : a = b := Char.ext (UInt32.toNat.inj hn)
              simp only [strLtB, hab, hba, if_false] at h1 h2
              rw [hchar, ih bs h1 h2]

/-- Code-point comparison is transitive. -/
theorem strLtB_trans : ∀ x y z : List Char,
    strLtB x y = true → strLtB y z = true → strLtB x z = true := by
  intro x
  induction x with
  | nil =>
      intro y z h1 h2
      cases y with
      | nil => simp [strLtB] at h1
      | cons b bs =>
          cases z with
          | nil => simp [strLtB] at h2
          | cons c cs => simp [strLtB]
  | cons a as ih =>
      intro y z h1 h2
      cases y with
      | nil => simp [strLtB] at h1
      | cons b bs =>
          cases z with
          | nil => simp [strLtB] at h2
          | cons c cs =>
              by_cases hab : a.toNat < b.toNat
              · by_cases hbc : b.toNat < c.toNat
                · have hac : a.toNat < c.toNat := by omega
                  rw [strLtB, if_pos hac]
                · by_cases hcb : c.toNat < b.toNat
                  · rw [strLtB, if_neg hbc, if_pos hcb] at h2
                    exact absurd h2 (by simp)
                  · have hac : a.toNat < c.toNat := by omega
                    rw [strLtB, if_pos hac]
              · by_cases hba : b.toNat < a.toNat
                · rw [strLtB, if_neg hab, if_pos hba] at h1
                  exact absurd h1 (by simp)
                · by_cases hbc : b.toNat < c.toNat
                  · have hac : a.toNat < c.toNat := by omega
                    rw [strLtB, if_pos hac]
                  · by_cases hcb : c.toNat < b.toNat
                    · rw [strLtB, if_neg hbc, if_pos hcb] at h2
                      exact absurd h2 (by simp)
                    · have hac1 : ¬ a.toNat < c.toNat := by omega
                      have hac2 : ¬ c.toNat < a.toNat := by omega
                      rw [strLtB, if_neg hab, if_neg hba] at h1
                      rw [strLtB, if_neg hbc, if_neg hcb] at h2
                      rw [strLtB, if_neg hac1, if_neg hac2]
                      exact ih bs cs h1 h2

/-- Weak code-point comparison (no greater-than) is transitive. -/
theorem strLtB_le_trans (x y z : List Char)
    (h1 : strLtB y x = false) (h2 : strLtB z y = false) : strLtB z x = false := by
  by_cases hzx : strLtB z x = true
  · by_cases hxy : strLtB x y = true
    · have hzy : strLtB z y = true := strLtB_trans z x y hzx hxy
      exact absurd hzy (by simp [h2])
    · have hxyeq : x = y := strLtB_eq_of_not x y (by simpa using hxy) h1
      rw [← hxyeq] at h2
      exact absurd hzx (by simp [h2])
  · simpa using hzx

/-- The tuple order in disjunctive form: key strictly below, or keys equal and
value weakly below. -/
theorem pairLe_iff (a b : String × String) :
    pairLe a b ↔ (strLtB a.1.data b.1.data = true ∨
      (a.1 = b.1 ∧ strLtB b.2.data a.2.data = false)) := by
  by_cases h1 : strLtB a.1.data b.1.data = true
  · simp [pairLe, h1]
  · by_cases h2 : strLtB b.1.data a.1.data = true
    · have hne : a.1 ≠ b.1 := by
        intro hk
        rw [hk] at h2
        simp [strLtB_irrefl] at h2
      simp [pairLe, h1, h2, hne]
    · have hk : a.1 = b.1 :=
        String.ext (strLtB_eq_of_not _ _ (by simpa using h1) (by simpa using h2))
      simp [pairLe, h1, h2, hk, strLtB_irrefl]

instance : IsTotal (String × String) pairLe where
  total a b := by
    rw [pairLe_iff, pairLe_iff]
    by_cases h1 : strLtB a.1.data b.1.data = true
    · exact Or.inl (Or.inl h1)
    · by_cases h2 : strLtB b.1.data a.1.data = true
      · exact Or.inr (Or.inl h2)
      · have h1' : strLtB a.1.data b.1.data = false := by simpa using h1
        have h2' : strLtB b.1.data a.1.data = false := by simpa using h2
        have hk : a.1 = b.1 := String.ext (strLtB_eq_of_not _ _ h1' h2')
        by_cases h3 : strLtB b.2.data a.2.data = true
        · exact Or.inr (Or.inr ⟨hk.symm, strLtB_asymm _ _ h3⟩)
        · exact Or.inl (Or.inr ⟨hk, by simpa using h3⟩)

instance : IsTrans (String × String) pairLe where
  trans a b c hab hbc := by
    rw [pairLe_iff] at hab hbc ⊢
    rcases hab with h1 | ⟨h1, h1v⟩ <;> rcases hbc with h2 | ⟨h2, h2v⟩
    · exact Or.inl (strLtB_trans _ _ _ h1 h2)
    · exact Or.inl (h2 ▸ h1)
    · exact Or.inl (h1 ▸ h2)
    · exact Or.inr ⟨h1.trans h2, strLtB_le_trans _ _ _ h1v h2v⟩

instance : IsAntisymm (String × String) pairLe where
  antisymm a b hab hba := by
    rw [pairLe_iff] at hab hba
    rcases hab with h1 | ⟨h1, h1v⟩ <;> rcases hba with h2 | ⟨h2, h2v⟩
    · exact absurd h1 (by simp [strLtB_asymm _ _ h2])
    · exact absurd h1 (by simp [h2, strLtB_irrefl])
    · exact absurd h2 (by simp [h1, strLtB_irrefl])
    · have hv : a.2 = b.2 := String.ext (strLtB_eq_of_not _ _ h2v h1v)
      exact Prod.ext h1 hv

/-- The sorted items are a permutation of the argument mapping. -/
theorem sortedItems_perm (args : List (String × String)) : List.Perm (sortedItems args) args :=
  List.perm_insertionSort pairLe args

/-- The sorted items are sorted under Python tuple comparison. -/
theorem sortedItems_sorted (args : List (String × String)) :
    List.Sorted pairLe (sortedItems args) :=
  List.sorted_insertionSort pairLe args

/-- Sorting the items is a function of the mapping contents only: any
iteration order produces the same sorted list. -/
theorem sortedItems_eq_of_perm {args args' : List (String × String)}
    (h : List.Perm args args') : sortedItems args = sortedItems args' :=
  List.eq_of_perm_of_sorted
    (((sortedItems_perm args).trans h).trans (sortedItems_perm args').symm)
    (sortedItems_sorted args) (sortedItems_sorted args')

/-- With pairwise-distinct keys (a mapping), the sorted items have strictly
ascending keys in the code-point lexicographic order. -/
theorem sortedItems_keys_ascending (args : List (String × String))
    (h : (args.map Prod.fst).Nodup) :
    ((sortedItems args).map Prod.fst).Pairwise strLt := by
  have hnd : ((sortedItems args).map Prod.fst).Nodup :=
    (((sortedItems_perm args).map Prod.fst).nodup_iff).mpr h
  have hne : (sortedItems args).Pairwise (fun a b : String × String => a.1 ≠ b.1) :=
    (List.pairwise_map).mp hnd
  have hs : (sortedItems args).Pairwise pairLe := sortedItems_sorted args
  refine (List.pairwise_map).mpr ((hs.and hne).imp ?_)
  rintro a b ⟨hab, hne'⟩
  rcases (pairLe_iff a b).mp hab with h1 | ⟨h1, -⟩
  · exact h1
  · exact absurd h1 hne'

/-- C2: `build_cmd` returns exactly
`[java, "-cp", joined_classpath, main_class]` followed by one `--key=value`
token per mapping entry; the result is the same for every iteration order of
the mapping; and with distinct keys the argument tokens appear in strictly
ascending lexicographic key order. -/
theorem claimC2 (packages : List String) (main_class : String)
    (args : List (String × String)) :
    build_cmd packages main_class args =
      [JAVA_BIN_PATH, "-cp", String.intercalate ":" packages, main_class] ++
        (sortedItems args).map (fun kv => "--" ++ kv.1 ++ "=" ++ kv.2) ∧
    List.Perm (sortedItems args) args ∧
    (∀ args', List.Perm args args' →
      build_cmd packages main_class args = build_cmd packages main_class args') ∧
    ((args.map Prod.fst).Nodup →
      ((sortedItems args).map Prod.fst).Pairwise strLt) := by
  refine ⟨rfl, sortedItems_perm args, ?_, sortedItems_keys_ascending args⟩
  intro args' h
  simp only [build_cmd, sortedItems_eq_of_perm h]

/-- Witness for C2 at a concrete mapping with shuffled iteration order. -/
theorem claimC2_witness :
    build_cmd ["p.jar"] "Main" [("b", "2"), ("a", "1")] =
      build_cmd ["p.jar"] "Main" [("a", "1"), ("b", "2")] ∧
    (((sortedItems [("b", "2"), ("a", "1")]).map Prod.fst).Pairwise strLt) := by
  have h := claimC2 ["p.jar"] "Main" [("b", "2"), ("a", "1")]
  refine ⟨h.2.2.1 [("a", "1"), ("b", "2")] (List.Perm.swap _ _ _), h.2.2.2 (by decide)⟩

/-! ### gs:// to /bigstore/ conversion (C9) -/

/-- Replacement of the empty list. -/
theorem replaceGsBig_nil : replaceGsBig [] = [] := by
  rw [replaceGsBig]

/-- Replacement consumes a leading occurrence of the pattern. -/
theorem replaceGsBig_pat_append (xs : List Char) :
    replaceGsBig (gsPat ++ xs) = bigstoreRepl ++ replaceGsBig xs := by
  show replaceGsBig ('g' :: ('s' :: ':' :: '/' :: '/' :: xs)) = _
  rw [replaceGsBig]
  have hp : gsPat.isPrefixOf ('g' :: 's' :: ':' :: '/' :: '/' :: xs) = true := by
    simp only [List.isPrefixOf_iff_prefix]
    exact List.prefix_append gsPat xs
  simp [hp]

/-- A list with no occurrence keeps its tail occurrence-free. -/
theorem NoGsOcc.tail {c : Char} {t : List Char} (h : NoGsOcc (c :: t)) : NoGsOcc t := by
  intro i hi
  have := h (i + 1) (by simpa using Nat.succ_le_succ hi)
  simpa using this

/-- An occurrence-free list is never itself pattern-prefixed. -/
theorem NoGsOcc.not_prefix {t : List Char} (h : NoGsOcc t) :
    ¬ gsPat.isPrefixOf t = true := by
  simpa using h 0 (Nat.zero_le _)

/-- Replacement walks over an occurrence-free chunk and then consumes the
following occurrence: the pattern cannot begin strictly inside
`t ++ gsPat ++ xs` before position `t.length`, because `gs://` has no
period. -/
theorem replaceGsBig_no_occ_append (t : List Char) (xs : List Char) (ht : NoGsOcc t) :
    replaceGsBig (t ++ (gsPat ++ xs)) = t ++ (bigstoreRepl ++ replaceGsBig xs) := by
  induction t with
  | nil => simpa using replaceGsBig_pat_append xs
  | cons c t' ih =>
      have hcond : gsPat.isPrefixOf (c :: (t' ++ (gsPat ++ xs))) = false := by
        rw [Bool.eq_false_iff]
        intro hpre
        rw [List.isPrefixOf_iff_prefix] at hpre
        have hpre' : gsPat <+: (c :: t') ++ (gsPat ++ xs) := by simpa using hpre
        by_cases hlen : 5 ≤ (c :: t').length
        · have htake : gsPat = ((c :: t') ++ (gsPat ++ xs)).take 5 :=
            List.prefix_iff_eq_take.mp hpre'
          rw [List.take_append_of_le_length hlen] at htake
          have : gsPat <+: (c :: t') := htake ▸ List.take_prefix 5 (c :: t')
          exact (ht.not_prefix) (List.isPrefixOf_iff_prefix.mpr this)
        · have hlt : (c :: t').length < 5 := Nat.lt_of_not_le hlen
          have hxlen : (c :: t').length < gsPat.length := by simpa [gsPat] using hlt
          have hidx := List.IsPrefix.getElem hpre' hxlen
          have hb : (c :: t').length < ((c :: t') ++ (gsPat ++ xs)).length := by
            simp [gsPat]
          have hval : ((c :: t') ++ (gsPat ++ xs))[(c :: t').length] = 'g' := by
            rw [List.getElem_append_right (Nat.le_refl _)]
            simp [gsPat]
          rw [hval] at hidx
          have hidx' : gsPat[(c :: t').length]? = some 'g' := by
            rw [List.getElem?_eq_getElem hxlen, hidx]
          have hlen14 : (c :: t').length = 1 ∨ (c :: t').length = 2 ∨
              (c :: t').length = 3 ∨ (c :: t').length = 4 := by
            have : 0 < (c :: t').length := by simp
            omega
          rcases hlen14 with h | h | h | h <;> rw [h] at hidx' <;>
            exact absurd hidx' (by decide)
      rw [List.cons_append, replaceGsBig, hcond]
      simp only [Bool.false_eq_true, if_false]
      rw [ih ht.tail]
      simp

/-- Replacement is the identity on an occurrence-free list. -/
theorem replaceGsBig_no_occ_id (t : List Char) (ht : NoGsOcc t) :
    replaceGsBig t = t := by
  induction t with
  | nil => exact replaceGsBig_nil
  | cons c t' ih =>
      rw [replaceGsBig]
      have hcond : gsPat.isPrefixOf (c :: t') = false :=
        Bool.eq_false_iff.mpr ht.not_prefix
      rw [hcond]
      simp only [Bool.false_eq_true, if_false]
      rw [ih ht.tail]

/-- Replacement rewrites every separator occurrence of a decomposition into
occurrence-free segments. -/
theorem replaceGsBig_joinSep (segs : List (List Char))
    (h : ∀ seg ∈ segs, NoGsOcc seg) :
    replaceGsBig (joinSep gsPat segs) = joinSep bigstoreRepl segs := by
  induction segs with
  | nil => simpa [joinSep] using replaceGsBig_nil
  | cons s rest ih =>
      cases rest with
      | nil =>
          simpa [joinSep] using replaceGsBig_no_occ_id s (h s (by simp))
      | cons s2 rest2 =>
          have h1 : NoGsOcc s := h s (by simp)
          have h2 : ∀ seg ∈ s2 :: rest2, NoGsOcc seg := fun seg hseg => h seg (by simp [hseg])
          show replaceGsBig (s ++ gsPat ++ joinSep gsPat (s2 :: rest2)) = _
          rw [List.append_assoc, replaceGsBig_no_occ_append s _ h1, ih h2]
          simp [joinSep, List.append_assoc]

/-- C9: `gcs_to_bigstore_path` raises `ValueError` exactly when the input does
not start with `gs://`; and on an input decomposed as `gs://` followed by
occurrence-free segments separated by further `gs://` occurrences, every
occurrence — not only the leading prefix — is replaced by `/bigstore/`. -/
theorem claimC9 (s : String) :
    ((∃ msg, gcs_to_bigstore_path s = .error msg) ↔ ¬ startsWithGs s.data = true) ∧
    (startsWithGs s.data = true → gcs_to_bigstore_path s = .ok ⟨replaceGsBig s.data⟩) ∧
    (∀ segs : List (List Char), (∀ seg ∈ segs, NoGsOcc seg) →
      s.data = gsPat ++ joinSep gsPat segs →
      gcs_to_bigstore_path s = .ok ⟨bigstoreRepl ++ joinSep bigstoreRepl segs⟩) := by
  refine ⟨?_, ?_, ?_⟩
  · unfold gcs_to_bigstore_path
    by_cases hs : startsWithGs s.data = true <;> simp [hs]
  · intro hs
    unfold gcs_to_bigstore_path
    simp [hs]
  · intro segs hsegs hdecomp
    have hs : startsWithGs s.data = true := by
      rw [hdecomp, startsWithGs, List.isPrefixOf_iff_prefix]
      exact List.prefix_append gsPat _
    unfold gcs_to_bigstore_path
    rw [if_pos hs, hdecomp, replaceGsBig_pat_append, replaceGsBig_joinSep segs hsegs]

/-- Witness for C9 on `gs://a/gs://b`: both occurrences are rewritten. -/
theorem claimC9_witness :
    gcs_to_bigstore_path "gs://a/gs://b" = .ok "/bigstore/a//bigstore/b" := by
  have h := (claimC9 "gs://a/gs://b").2.2 [['a', '/'], ['b']]
    (by decide) (by decide)
  simpa using h

/-! ### Labels serialization (C6) -/

/-- Hex digits are never the space character. -/
theorem hexDigitChar_ne_space (k : Nat) (hk : k < 16) : hexDigitChar k ≠ ' ' := by
  revert hk
  revert k
  decide

/-- `\uXXXX` escapes contain no space. -/
theorem hex4_no_space (n : Nat) : ' ' ∉ hex4 n := by
  intro hmem
  simp only [hex4, List.mem_cons, List.not_mem_nil, or_false] at hmem
  rcases hmem with h | h | h | h <;>
    exact absurd h.symm (hexDigitChar_ne_space _ (Nat.mod_lt _ (by norm_num)))

/-- The escape of the space character is the space character. -/
theorem jsonEscapeChar_space : jsonEscapeChar ' ' = [' '] := by decide

/-- The escape of any non-space character contains no space. -/
theorem jsonEscapeChar_no_space {c : Char} (hc : c ≠ ' ') : ' ' ∉ jsonEscapeChar c := by
  unfold jsonEscapeChar
  by_cases h1 : c = '"'
  · rw [if_pos h1]; decide
  rw [if_neg h1]
  by_cases h2 : c = '\\'
  · rw [if_pos h2]; decide
  rw [if_neg h2]
  by_cases h3 : c = '\n'
  · rw [if_pos h3]; decide
  rw [if_neg h3]
  by_cases h4 : c = '\t'
  · rw [if_pos h4]; decide
  rw [if_neg h4]
  by_cases h5 : c = '\r'
  · rw [if_pos h5]; decide
  rw [if_neg h5]
  by_cases h6 : c = Char.ofNat 8
  · rw [if_pos h6]; decide
  rw [if_neg h6]
  by_cases h7 : c = Char.ofNat 12
  · rw [if_pos h7]; decide
  rw [if_neg h7]
  by_cases h8 : c.toNat < 32
  · rw [if_pos h8]
    intro hmem
    simp only [List.mem_cons] at hmem
    rcases hmem with h | h | h
    · exact absurd h.symm (by decide)
    · exact absurd h.symm (by decide)
    · exact hex4_no_space _ h
  rw [if_neg h8]
  by_cases h9 : c.toNat < 127
  · rw [if_pos h9]
    intro hmem
    simp only [List.mem_singleton] at hmem
    exact hc (hmem ▸ rfl)
  rw [if_neg h9]
  by_cases h10 : c.toNat < 65536
  · rw [if_pos h10]
    intro hmem
    simp only [List.mem_cons] at hmem
    rcases hmem with h | h | h
    · exact absurd h.symm (by decide)
    · exact absurd h.symm (by decide)
    · exact hex4_no_space _ h
  · rw [if_neg h10]
    intro hmem
    rw [List.mem_append] at hmem
    rcases hmem with hmem | hmem <;>
    · simp only [List.mem_cons] at hmem
      rcases hmem with h | h | h
      · exact absurd h.symm (by decide)
      · exact absurd h.symm (by decide)
      · exact hex4_no_space _ h

/-- Dropping spaces commutes with JSON escaping at the character-list level. -/
theorem filter_flatten_escape (l : List Char) :
    ((l.map jsonEscapeChar).flatten).filter (fun c => decide (c ≠ ' ')) =
      ((l.filter (fun c => decide (c ≠ ' '))).map jsonEscapeChar).flatten := by
  induction l with
  | nil => rfl
  | cons c cs ih =>
      simp only [List.map_cons, List.flatten_cons, List.filter_append, List.filter_cons]
      by_cases hc : c = ' '
      · subst hc
        simpa [jsonEscapeChar_space] using ih
      · have hkeep : decide (c ≠ ' ') = true := by simpa using hc
        have hesc : (jsonEscapeChar c).filter (fun x => decide (x ≠ ' ')) = jsonEscapeChar c := by
          rw [List.filter_eq_self]
          intro x hx
          have hxne : x ≠ ' ' := by
            intro hx'
            exact jsonEscapeChar_no_space hc (hx' ▸ hx)
          simpa using hxne
        simp only [hkeep, if_true, List.map_cons, List.flatten_cons]
        rw [hesc, ih]

/-- Dropping spaces commutes with JSON escaping. -/
theorem stripSpaces_jsonEscape (s : String) :
    stripSpaces (jsonEscape s) = jsonEscape (stripSpaces s) :=
  String.ext (by simpa [stripSpaces, jsonEscape] using filter_flatten_escape s.data)

/-- Dropping spaces distributes over append. -/
theorem stripSpaces_append (a b : String) :
    stripSpaces (a ++ b) = stripSpaces a ++ stripSpaces b :=
  String.ext (by simp [stripSpaces, List.filter_append])

/-- Dropping spaces leaves a space-free string unchanged. -/
theorem stripSpaces_eq_self {s : String} (h : ' ' ∉ s.data) : stripSpaces s = s := by
  apply String.ext
  simp only [stripSpaces]
  rw [List.filter_eq_self]
  intro x hx
  have : x ≠ ' ' := fun hx' => h (hx' ▸ hx)
  simpa using this

/-- The output of space-dropping contains no space. -/
theorem stripSpaces_no_space (s : String) : ' ' ∉ (stripSpaces s).data := by
  simp [stripSpaces]

/-- Dropping spaces commutes with JSON string quoting. -/
theorem stripSpaces_jsonStr (s : String) :
    stripSpaces (jsonStr s) = jsonStr (stripSpaces s) := by
  unfold jsonStr
  rw [stripSpaces_append, stripSpaces_append, stripSpaces_jsonEscape,
    stripSpaces_eq_self (s := "\"") (by decide)]

/-- C6 (amended): the labels string is the compact two-key JSON object whose
values are the lowercased template and candidate names with their space
characters removed (`json.dumps(...).replace(' ', '')` removes spaces inside
the values as well as the separators), and it contains no space character. -/
theorem claimC6 (templateName candidateName : String) :
    labels_str templateName candidateName =
      compactTwoKeys TELEPORT_LABEL_KEY_TEMPLATE_NAME (stripSpaces (pyLower templateName))
        TELEPORT_LABEL_KEY_TEMPLATE_VERSION (stripSpaces (pyLower candidateName)) ∧
    ' ' ∉ (labels_str templateName candidateName).data := by
  constructor
  · unfold labels_str jsonDumpsPairs
    simp only [List.map_cons, List.map_nil]
    have hint : String.intercalate ", "
        [jsonStr TELEPORT_LABEL_KEY_TEMPLATE_NAME ++ ": " ++ jsonStr (pyLower templateName),
         jsonStr TELEPORT_LABEL_KEY_TEMPLATE_VERSION ++ ": " ++ jsonStr (pyLower candidateName)] =
        (jsonStr TELEPORT_LABEL_KEY_TEMPLATE_NAME ++ ": " ++ jsonStr (pyLower templateName)) ++
          ", " ++
          (jsonStr TELEPORT_LABEL_KEY_TEMPLATE_VERSION ++ ": " ++ jsonStr (pyLower candidateName)) :=
      rfl
    rw [hint]
    have e1 : stripSpaces "\x7b" = "\x7b" := by decide
    have e2 : stripSpaces "\x7d" = "\x7d" := by decide
    have e3 : stripSpaces ": " = ":" := by decide
    have e4 : stripSpaces ", " = "," := by decide
    have e5 : stripSpaces TELEPORT_LABEL_KEY_TEMPLATE_NAME = TELEPORT_LABEL_KEY_TEMPLATE_NAME :=
      stripSpaces_eq_self (by decide)
    have e6 : stripSpaces TELEPORT_LABEL_KEY_TEMPLATE_VERSION =
        TELEPORT_LABEL_KEY_TEMPLATE_VERSION :=
      stripSpaces_eq_self (by decide)
    simp only [stripSpaces_append, stripSpaces_jsonStr, e1, e2, e3, e4, e5, e6]
    simp [compactTwoKeys, String.append_assoc]
  · exact stripSpaces_no_space _

/-- Counterexample to C6 as stated: for the template name `"A B"` the value
under the template-name key is `"ab"`, not the lowercase `"a b"` of the name
(the global space-strip also eats spaces inside values), so the labels string
is not the compact serialization of the documented mapping. -/
theorem claimC6_counterexample :
    labels_str "A B" "RC1" ≠
      compactTwoKeys TELEPORT_LABEL_KEY_TEMPLATE_NAME (pyLower "A B")
        TELEPORT_LABEL_KEY_TEMPLATE_VERSION (pyLower "RC1") := by
  decide

/-! ### Argument merging (C7) -/

/-- Updating a dict binding, observed through lookup. -/
theorem dictGet_dictSet (d : List (String × String)) (k v : String) (q : String) :
    dictGet (dictSet d k v) q = if q = k then some v else dictGet d q := by
  unfold dictSet
  by_cases hin : d.any (fun kv => decide (kv.1 = k))
  · rw [if_pos hin]
    induction d with
    | nil => simp at hin
    | cons e d' ih =>
        simp only [List.any_cons, Bool.or_eq_true, decide_eq_true_eq] at hin
        by_cases hek : e.1 = k
        · simp only [List.map_cons, if_pos hek, dictGet, List.find?_cons]
          by_cases hqk : q = k
          · subst hqk
            simp [dictGet]
          · simp only [dictGet] at *
            have h1 : (decide ((k, v).1 = q)) = false := by simpa using fun h => hqk h.symm
            have h2 : (decide (e.1 = q)) = false := by
              simp only [decide_eq_false_iff_not]
              intro h
              exact hqk (by rw [← h, hek])
            simp only [h1, h2, List.find?_cons_of_neg, Bool.false_eq_true, not_false_iff]
            by_cases hin' : d'.any (fun kv => decide (kv.1 = k))
            · simpa [hqk] using ih hin'
            · have hmapid : d'.map (fun kv => if kv.1 = k then (k, v) else kv) = d'.map id := by
                apply List.map_congr_left
                intro x hx
                rw [if_neg, id]
                intro hxk
                exact hin' (List.any_eq_true.mpr ⟨x, hx, by simpa using hxk⟩)
              rw [hmapid, List.map_id, if_neg hqk]
        · rcases hin with hek' | hin'
          · exact absurd hek' hek
          · simp only [List.map_cons, if_neg hek, dictGet, List.find?_cons]
            by_cases heq : e.1 = q
            · have hqk : ¬ q = k := fun h => hek (heq.trans h)
              simp [heq, hqk]
            · have h2 : (decide (e.1 = q)) = false := by simpa using heq
              simp only [h2, Bool.false_eq_true, not_false_iff, List.find?_cons_of_neg]
              simpa [dictGet] using ih (List.any_eq_true.mpr (by
                rcases List.any_eq_true.mp hin' with ⟨x, hx, hxk⟩
                exact ⟨x, hx, hxk⟩))
  · rw [if_neg hin]
    unfold dictGet
    rw [List.find?_append]
    by_cases hqk : q = k
    · subst hqk
      have hnone : d.find? (fun kv => decide (kv.1 = q)) = none := by
        rw [List.find?_eq_none]
        intro x hx hpx
        exact hin (List.any_eq_true.mpr ⟨x, hx, hpx⟩)
      simp [hnone]
    · have h1 : (decide ((k, v).1 = q)) = false := by simpa using fun h => hqk h.symm
      simp [h1, dictGet, hqk]

/-- Folding the parameter updates, observed through lookup: the last parameter
with a key wins, and absent that the base dict answers. -/
theorem dictGet_foldl_dictSet (ps : List (String × String)) (d : List (String × String))
    (q : String) :
    dictGet (ps.foldl (fun d kv => dictSet d kv.1 kv.2) d) q =
      ((ps.reverse.find? (fun kv => decide (kv.1 = q))).map Prod.snd).or (dictGet d q) := by
  induction ps generalizing d with
  | nil => simp
  | cons kv ps' ih =>
      simp only [List.foldl_cons, List.reverse_cons, List.find?_append]
      rw [ih]
      cases hfind : ps'.reverse.find? (fun kv => decide (kv.1 = q)) with
      | some x => simp
      | none =>
          simp only [hfind, Option.map_none, Option.none_or, Option.or_none]
          rw [dictGet_dictSet]
          by_cases hqk : q = kv.1
          · have : (decide (kv.1 = q)) = true := by simpa using hqk.symm
            simp [this, hqk]
          · have : (decide (kv.1 = q)) = false := by simpa using fun h => hqk h.symm
            simp [this, hqk]

/-- C7: the argument mapping starts from exactly the five fixed keys (with
`stagingLocation` the library staging bucket joined with the candidate name),
and every template parameter is merged in afterwards with last-write-wins
semantics, so a parameter whose key equals a fixed key replaces the fixed
value. -/
theorem claimC7 (flags : Flags) (base_destination : Path) (t : Template) :
    (fixed_args flags base_destination t).map Prod.fst =
      ["runner", "project", "stagingLocation", "templateLocation", "labels"] ∧
    dictGet (fixed_args flags base_destination t) "stagingLocation" =
      some (flags.library_staging_bucket ++ "/" ++ flags.candidate_name) ∧
    (t.parameters = [] → stage_args flags base_destination t = fixed_args flags base_destination t) ∧
    (∀ q, dictGet (stage_args flags base_destination t) q =
      ((t.parameters.reverse.find? (fun kv => decide (kv.1 = q))).map Prod.snd).or
        (dictGet (fixed_args flags base_destination t) q)) := by
  refine ⟨rfl, rfl, ?_, ?_⟩
  · intro h
    unfold stage_args
    rw [h]
    rfl
  · intro q
    exact dictGet_foldl_dictSet t.parameters (fixed_args flags base_destination t) q

/-- Witness for C7: a parameter keyed `project` silently overrides the fixed
`project` value. -/
theorem claimC7_witness :
    dictGet (stage_args
      ⟨"", "gs://s", "gs://lib", "proj-1", "rc", "", "", false, "STAGING", "/b"⟩
      ["gs://s", "rc"]
      ⟨"T", "T", "Main", "live", false, [("project", "evil")], "m"⟩) "project" =
      some "evil" := by
  have h := (claimC7 ⟨"", "gs://s", "gs://lib", "proj-1", "rc", "", "", false, "STAGING", "/b"⟩
    ["gs://s", "rc"] ⟨"T", "T", "Main", "live", false, [("project", "evil")], "m"⟩).2.2.2 "project"
  rw [h]
  decide

/-! ### Store lemmas -/

/-- Key presence is lookup success. -/
theorem hasKey_eq_isSome (es : List (Path × Node)) (p : Path) :
    hasKey es p = (lookupEntries es p).isSome := by
  induction es with
  | nil => rfl
  | cons e es ih =>
      unfold hasKey lookupEntries
      by_cases h : e.1 = p <;> simp [h, ih]

/-- Replacing a present key, observed at that key. -/
theorem lookupEntries_replace_self (es : List (Path × Node)) (p : Path) (n : Node)
    (h : hasKey es p = true) : lookupEntries (replaceEntries es p n) p = some n := by
  induction es with
  | nil => simp [hasKey] at h
  | cons e es ih =>
      unfold replaceEntries
      by_cases he : e.1 = p
      · simp [he, lookupEntries]
      · unfold hasKey at h
        rw [if_neg he] at h
        simp [lookupEntries, he, ih h]

/-- Replacing a key, observed at any other key. -/
theorem lookupEntries_replace_ne (es : List (Path × Node)) (p : Path) (n : Node)
    (q : Path) (hq : q ≠ p) : lookupEntries (replaceEntries es p n) q = lookupEntries es q := by
  induction es with
  | nil => rfl
  | cons e es ih =>
      unfold replaceEntries
      by_cases he : e.1 = p
      · rw [if_pos he]
        show lookupEntries ((p, n) :: replaceEntries es p n) q = lookupEntries (e :: es) q
        unfold lookupEntries
        rw [if_neg (fun h : p = q => hq h.symm), if_neg (fun h : e.1 = q => hq (h.symm.trans he)),
          ih]
      · rw [if_neg he]
        show lookupEntries (e :: replaceEntries es p n) q = lookupEntries (e :: es) q
        unfold lookupEntries
        by_cases heq : e.1 = q
        · rw [if_pos heq, if_pos heq]
        · rw [if_neg heq, if_neg heq, ih]

/-- Lookup distributes over entry-list append. -/
theorem lookupEntries_append (es fs : List (Path × Node)) (p : Path) :
    lookupEntries (es ++ fs) p = (lookupEntries es p).or (lookupEntries fs p) := by
  induction es with
  | nil => simp [lookupEntries]
  | cons e es ih =>
      show lookupEntries (e :: (es ++ fs)) p = (lookupEntries (e :: es) p).or (lookupEntries fs p)
      rw [lookupEntries, lookupEntries]
      by_cases he : e.1 = p
      · rw [if_pos he, if_pos he]
        rfl
      · rw [if_neg he, if_neg he, ih]

/-- Writing a node, observed at the written path. -/
theorem lookup_set_self (fs : FS) (p : Path) (n : Node) :
    (fs.set p n).lookup p = some n := by
  unfold FS.set FS.lookup
  by_cases h : hasKey fs.entries p
  · simp only [h, if_true]
    exact lookupEntries_replace_self fs.entries p n h
  · simp only [h, if_false, Bool.false_eq_true]
    rw [lookupEntries_append]
    have : lookupEntries fs.entries p = none := by
      rw [hasKey_eq_isSome] at h
      exact Option.not_isSome_iff_eq_none.mp (by simpa using h)
    simp [this, lookupEntries]

/-- Writing a node, observed at any other path. -/
theorem lookup_set_ne (fs : FS) (p : Path) (n : Node) (q : Path) (hq : q ≠ p) :
    (fs.set p n).lookup q = fs.lookup q := by
  unfold FS.set FS.lookup
  by_cases h : hasKey fs.entries p
  · simp only [h, if_true]
    exact lookupEntries_replace_ne fs.entries p n q hq
  · simp only [h, if_false, Bool.false_eq_true]
    rw [lookupEntries_append]
    have hnone : lookupEntries [(p, n)] q = none := by
      have hpq : ¬ p = q := fun h => hq h.symm
      simp [lookupEntries, hpq]
    cases hl : lookupEntries fs.entries q <;> simp [hnone, hl]

/-- Replacing keeps the key list. -/
theorem keys_replaceEntries (es : List (Path × Node)) (p : Path) (n : Node) :
    (replaceEntries es p n).map Prod.fst = es.map Prod.fst := by
  induction es with
  | nil => rfl
  | cons e es ih =>
      unfold replaceEntries
      by_cases he : e.1 = p <;> simp [he, ih]

/-- Writing extends the key list by at most the written key. -/
theorem keys_set (fs : FS) (p : Path) (n : Node) :
    (fs.set p n).keys = fs.keys ∨ (fs.set p n).keys = fs.keys ++ [p] := by
  unfold FS.set FS.keys
  by_cases h : hasKey fs.entries p
  · left
    simp only [h, if_true]
    exact keys_replaceEntries fs.entries p n
  · right
    simp [h]

/-- An absent key is no list member. -/
theorem not_mem_keys_of_not_hasKey (es : List (Path × Node)) (p : Path)
    (h : hasKey es p = false) : p ∉ es.map Prod.fst := by
  induction es with
  | nil => simp
  | cons e es ih =>
      unfold hasKey at h
      by_cases he : e.1 = p
      · rw [if_pos he] at h
        simp at h
      · rw [if_neg he] at h
        simp only [List.map_cons, List.mem_cons]
        rintro (h0 | h0)
        · exact he h0.symm
        · exact ih h h0

/-- Writing preserves key uniqueness. -/
theorem nodupKeys_set (fs : FS) (p : Path) (n : Node) (h : NodupKeys fs) :
    NodupKeys (fs.set p n) := by
  unfold NodupKeys at *
  unfold FS.set FS.keys at *
  by_cases hk : hasKey fs.entries p
  · simp only [hk, if_true]
    rw [keys_replaceEntries]
    exact h
  · simp only [hk, if_false, Bool.false_eq_true, List.map_append]
    rw [List.nodup_append]
    refine ⟨h, by simp, ?_⟩
    intro q hq
    simp only [List.map_cons, List.map_nil, List.mem_singleton]
    intro hq'
    subst hq'
    exact not_mem_keys_of_not_hasKey fs.entries q (Bool.eq_false_iff.mpr hk) hq

/-! ### Metadata redirection (C10) -/

/-- C10: with a non-empty `metadata_dir_override`, every `write_metadata` call
writes to the override directory joined with only the last component of the
caller-supplied filename — not to the supplied filename — so the categories
index and every successfully staged template's metadata document land in the
override directory. -/
theorem claimC10 (flags : Flags) (st : St) (filename : Path) (document : String)
    (hov : flags.metadata_dir_override ≠ "") :
    metadataTarget flags filename = [flags.metadata_dir_override, filename.getLastD ""] ∧
    (write_metadata flags st filename document).fs.lookup
      [flags.metadata_dir_override, filename.getLastD ""] = some (.file document) ∧
    (write_metadata flags st filename document).tr =
      st.tr ++ [.wrote [flags.metadata_dir_override, filename.getLastD ""]] ∧
    (filename ≠ [flags.metadata_dir_override, filename.getLastD ""] →
      (write_metadata flags st filename document).fs.lookup filename = st.fs.lookup filename) ∧
    (∀ base cats, (write_category_information flags st base cats).tr =
      st.tr ++ [.wrote [flags.metadata_dir_override, "categories.json"]]) ∧
    (∀ runProc base t st', stage_template runProc flags st base t = .ok (true, st') →
      st'.fs.lookup [flags.metadata_dir_override, t.name ++ "_metadata"] =
        some (.file t.metadata)) := by
  have htgt : metadataTarget flags filename =
      [flags.metadata_dir_override, filename.getLastD ""] := by
    unfold metadataTarget
    rw [if_pos hov]
  refine ⟨htgt, ?_, ?_, ?_, ?_, ?_⟩
  · unfold write_metadata
    rw [htgt]
    exact lookup_set_self _ _ _
  · unfold write_metadata
    rw [htgt]
  · intro hne
    unfold write_metadata
    rw [htgt]
    exact lookup_set_ne _ _ _ _ hne
  · intro base cats
    unfold write_category_information write_metadata metadataTarget
    rw [if_pos hov]
    have : (base ++ CATEGORIES_CONFIG_FILE_COMPONENTS).getLastD "" = "categories.json" := by
      show (base ++ ["ui_metadata", "categories.json"]).getLastD "" = "categories.json"
      rw [show base ++ ["ui_metadata", "categories.json"] =
        (base ++ ["ui_metadata"]) ++ ["categories.json"] by simp]
      exact List.getLastD_concat _ _ _
    rw [this]
  · intro runProc base t st' h
    unfold stage_template at h
    split at h
    · exact absurd h (by simp)
    · simp only [] at h
      split at h
      · simp at h
      · simp at h
      · split at h
        · simp at h
        · injection h with h1
          injection h1 with h2 h3
          subst h3
          unfold write_metadata metadataTarget
          rw [if_pos hov]
          rw [show (base ++ [t.name ++ "_metadata"]).getLastD "" = t.name ++ "_metadata"
            from List.getLastD_concat _ _ _]
          exact lookup_set_self _ _ _

/-- Witness for C10 at a concrete override and filename. -/
theorem claimC10_witness :
    metadataTarget ⟨"", "gs://s", "gs://lib", "p", "rc", "", "/tmp/meta", false, "STAGING", "/b"⟩
      ["gs://s", "rc", "T_metadata"] = ["/tmp/meta", "T_metadata"] ∧
    (write_metadata ⟨"", "gs://s", "gs://lib", "p", "rc", "", "/tmp/meta", false, "STAGING", "/b"⟩
      ⟨⟨[]⟩, []⟩ ["gs://s", "rc", "T_metadata"] "mdoc").fs.lookup
      ["/tmp/meta", "T_metadata"] = some (.file "mdoc") := by
  have h := claimC10 ⟨"", "gs://s", "gs://lib", "p", "rc", "", "/tmp/meta", false, "STAGING", "/b"⟩
    ⟨⟨[]⟩, []⟩ ["gs://s", "rc", "T_metadata"] "mdoc" (by decide)
  exact ⟨h.1, h.2.1⟩

/-! ### Template staging failure handling (C4) -/

/-- Unfolding of `stage_template` once the package table lookup succeeds. -/
theorem stage_template_some (runProc : List String → ProcOutcome) (flags : Flags) (st : St)
    (base_destination : Path) (t : Template) (pkg : String)
    (hpkg : TELEPORT_PACKAGES_PER_BEAM_VERSION t.beam_version_override = some pkg) :
    stage_template runProc flags st base_destination t =
      match runProc (stageCmd flags base_destination t) with
      | .exn => .ok (false, { st with tr := st.tr ++ [.ran (stageCmd flags base_destination t)] })
      | .timeout =>
          .ok (false, { st with tr := st.tr ++ [.ran (stageCmd flags base_destination t)] })
      | .exits code =>
          if code ≠ 0 then
            .ok (false, { st with tr := st.tr ++ [.ran (stageCmd flags base_destination t)] })
          else
            .ok (true, write_metadata flags
              { st with tr := st.tr ++ [.ran (stageCmd flags base_destination t)] }
              (base_destination ++ [t.name ++ "_metadata"]) t.metadata) := by
  unfold stage_template
  rw [hpkg]

/-- C4: whenever the external build process raises, times out, or exits
non-zero, `stage_template` returns `False` with the store unchanged (no
metadata file written) and propagates no exception; the metadata file is
written only on the success path, before returning `True`. -/
theorem claimC4 (runProc : List String → ProcOutcome) (flags : Flags) (st : St)
    (base_destination : Path) (t : Template)
    (hvalid : (TELEPORT_PACKAGES_PER_BEAM_VERSION t.beam_version_override).isSome = true) :
    ((runProc (stageCmd flags base_destination t) = .exn ∨
      runProc (stageCmd flags base_destination t) = .timeout ∨
      (∃ c, runProc (stageCmd flags base_destination t) = .exits c ∧ c ≠ 0)) →
      stage_template runProc flags st base_destination t =
        .ok (false, { st with tr := st.tr ++ [.ran (stageCmd flags base_destination t)] })) ∧
    (runProc (stageCmd flags base_destination t) = .exits 0 →
      stage_template runProc flags st base_destination t =
        .ok (true, write_metadata flags
          { st with tr := st.tr ++ [.ran (stageCmd flags base_destination t)] }
          (base_destination ++ [t.name ++ "_metadata"]) t.metadata)) := by
  obtain ⟨pkg, hpkg⟩ := Option.isSome_iff_exists.mp hvalid
  constructor
  · intro hfail
    rw [stage_template_some runProc flags st base_destination t pkg hpkg]
    rcases hfail with hf | hf | ⟨c, hf, hc⟩ <;> rw [hf]
    simp [hc]
  · intro hok
    rw [stage_template_some runProc flags st base_destination t pkg hpkg, hok]
    simp

/-- Witness for C4: a non-zero exit produces `False` and leaves the store
unchanged; a zero exit produces `True`. -/
theorem claimC4_witness :
    stage_template (fun _ => .exits 1)
      ⟨"", "gs://s", "gs://lib", "p", "rc", "", "", false, "STAGING", "/b"⟩
      ⟨⟨[]⟩, []⟩ ["gs://s", "rc"] ⟨"T", "T", "Main", "live", false, [], "m"⟩ =
      .ok (false, ⟨⟨[]⟩, [.ran (stageCmd
        ⟨"", "gs://s", "gs://lib", "p", "rc", "", "", false, "STAGING", "/b"⟩
        ["gs://s", "rc"] ⟨"T", "T", "Main", "live", false, [], "m"⟩)]⟩) := by
  have h := (claimC4 (fun _ => .exits 1)
    ⟨"", "gs://s", "gs://lib", "p", "rc", "", "", false, "STAGING", "/b"⟩
    ⟨⟨[]⟩, []⟩ ["gs://s", "rc"] ⟨"T", "T", "Main", "live", false, [], "m"⟩ (by decide)).1
    (Or.inr (Or.inr ⟨1, rfl, by decide⟩))
  exact h

/-! ### Production promotion preconditions (C1) -/

/-- C1 (amended): `write_production` terminates fatally at the precondition
check — with the store untouched, so nothing is created or copied — when the
staging source path is not an existing directory, or when the production
release path already exists as a directory. -/
theorem claimC1 (fuel : Nat) (flags : Flags) (fs : FS)
    (hpre : fs.isDirectory [flags.template_staging_bucket, flags.candidate_name] = false ∨
      fs.isDirectory [flags.template_prod_bucket, flags.release_name] = true) :
    write_production fuel flags fs = .error (.fatal fs) := by
  simp only [write_production, List.singleton_append]
  rcases hpre with h | h
  · rw [if_pos (by simp [h])]
  · by_cases h1 : fs.isDirectory [flags.template_staging_bucket, flags.candidate_name] = true
    · rw [if_neg (by simp [h1]), if_pos h]
    · rw [if_pos (by simpa using h1)]

/-- Counterexample to C1 as stated: the production release path
`{prod_root}/{release_name}` already exists (as a file), yet the run does not
terminate fatally at the precondition check — the `IsDirectory` test passes
and the run proceeds to `MkDir`, which fails in the storage layer instead. -/
theorem claimC1_counterexample :
    c1FS.isDirectory ["gs://stag", "rc"] = true ∧
    c1FS.pathExists ["gs://prod", "rel"] = true ∧
    write_production 3 c1Flags c1FS = .error .gos ∧
    write_production 3 c1Flags c1FS ≠ .error (.fatal c1FS) := by
  have hres : write_production 3 c1Flags c1FS = .error .gos := by rfl
  refine ⟨by decide, by decide, hres, ?_⟩
  intro hcon
  rw [hres] at hcon
  injection hcon with h
  exact Err.noConfusion h

/-- Witness for C1 (amended) at a concrete store whose release directory
already exists as a directory. -/
theorem claimC1_witness :
    write_production 3 c1Flags ⟨[(["gs://stag", "rc"], .dir), (["gs://prod", "rel"], .dir)]⟩ =
      .error (.fatal ⟨[(["gs://stag", "rc"], .dir), (["gs://prod", "rel"], .dir)]⟩) :=
  claimC1 3 c1Flags ⟨[(["gs://stag", "rc"], .dir), (["gs://prod", "rel"], .dir)]⟩
    (Or.inr (by decide))

/-! ### Staging workflow fail-fast (C5) -/

/-- Bind reduction for the embedded do-notation, success case. -/
theorem bind_ok_eq {eps a b : Type} (x : a) (f : a → Except eps b) :
    (Except.ok x >>= f : Except eps b) = f x := rfl

/-- Bind reduction for the embedded do-notation, failure case. -/
theorem bind_error_eq {eps a b : Type} (e : eps) (f : a → Except eps b) :
    (Except.error e >>= f : Except eps b) = .error e := rfl

/-- The template loop over an appended list runs the first list, then — only
when it completed without failure — the second. -/
theorem templateLoop_append (runProc : List String → ProcOutcome) (flags : Flags)
    (base : Path) (ts1 ts2 : List Template) (st : St) :
    templateLoop runProc flags base st (ts1 ++ ts2) =
      match templateLoop runProc flags base st ts1 with
      | .error e => .error e
      | .ok (.cont st1) => templateLoop runProc flags base st1 ts2
      | .ok (.fail1 st1) => .ok (.fail1 st1) := by
  induction ts1 generalizing st with
  | nil => simp [templateLoop]
  | cons t ts ih =>
      show templateLoop runProc flags base st (t :: (ts ++ ts2)) = _
      rw [templateLoop, templateLoop]
      cases hst : stage_template runProc flags st base t with
      | error e => simp [bind_error_eq]
      | ok pair =>
          obtain ⟨ok, st1⟩ := pair
          cases ok
          · simp [bind_ok_eq]
          · simpa [bind_ok_eq] using ih st1

/-- The nested category/template loops visit exactly the flattened template
list, in order. -/
theorem categoryLoop_eq_templateLoop (runProc : List String → ProcOutcome) (flags : Flags)
    (base : Path) (cats : List Category) (st : St) :
    categoryLoop runProc flags base st cats =
      templateLoop runProc flags base st (flatTemplates cats) := by
  induction cats generalizing st with
  | nil => rfl
  | cons c cs ih =>
      have hflat : flatTemplates (c :: cs) = c.templates ++ flatTemplates cs := by
        simp [flatTemplates]
      rw [hflat, templateLoop_append, categoryLoop]
      cases h : templateLoop runProc flags base st c.templates with
      | error e => simp [bind_error_eq]
      | ok r =>
          cases r with
          | cont st1 => simpa [bind_ok_eq] using ih st1
          | fail1 st1 => simp [bind_ok_eq]

/-- A failing head template ends the loop immediately with `return 1`: only
the subprocess launch is recorded, the store is untouched, and no further
template is attempted. -/
theorem templateLoop_cons_fail (runProc : List String → ProcOutcome) (flags : Flags)
    (base : Path) (st : St) (t : Template) (ts : List Template) (pkg : String)
    (hpkg : TELEPORT_PACKAGES_PER_BEAM_VERSION t.beam_version_override = some pkg)
    (hfail : runProc (stageCmd flags base t) ≠ .exits 0) :
    templateLoop runProc flags base st (t :: ts) =
      .ok (.fail1 { st with tr := st.tr ++ [.ran (stageCmd flags base t)] }) := by
  rw [templateLoop, stage_template_some runProc flags st base t pkg hpkg]
  cases hout : runProc (stageCmd flags base t) with
  | exn => simp [bind_ok_eq]
  | timeout => simp [bind_ok_eq]
  | exits c =>
      have hc : c ≠ 0 := fun h => hfail (by rw [hout, h])
      simp [hc, bind_ok_eq]

/-- A succeeding head template records its launch and metadata write and the
loop continues on the updated state. -/
theorem templateLoop_cons_ok (runProc : List String → ProcOutcome) (flags : Flags)
    (base : Path) (st : St) (t : Template) (ts : List Template) (pkg : String)
    (hpkg : TELEPORT_PACKAGES_PER_BEAM_VERSION t.beam_version_override = some pkg)
    (hok : runProc (stageCmd flags base t) = .exits 0) :
    templateLoop runProc flags base st (t :: ts) =
      templateLoop runProc flags base
        { fs := st.fs.set (metaPathFor flags base t.name) (.file t.metadata),
          tr := st.tr ++ [.ran (stageCmd flags base t), .wrote (metaPathFor flags base t.name)] }
        ts := by
  rw [templateLoop, stage_template_some runProc flags st base t pkg hpkg, hok]
  simp [bind_ok_eq, write_metadata, metaPathFor, List.append_assoc]

/-- Fail-fast shape of the template loop: with the first `i` templates
succeeding and template `i` failing, the loop returns `fail1` with exactly
the metadata of templates `0..i-1` written and the trace ending in template
`i`'s launch. -/
theorem templateLoop_fail_fast (runProc : List String → ProcOutcome) (flags : Flags)
    (base : Path) :
    ∀ (ts : List Template) (i : Nat) (st : St) (hi : i < ts.length),
    (∀ j (hj : j < ts.length), j ≤ i →
      (TELEPORT_PACKAGES_PER_BEAM_VERSION (ts.get ⟨j, hj⟩).beam_version_override).isSome = true) →
    (∀ j (hj : j < ts.length), j < i →
      runProc (stageCmd flags base (ts.get ⟨j, hj⟩)) = .exits 0) →
    runProc (stageCmd flags base (ts.get ⟨i, hi⟩)) ≠ .exits 0 →
    templateLoop runProc flags base st ts =
      .ok (.fail1 {
        fs := (ts.take i).foldl
          (fun fs t => fs.set (metaPathFor flags base t.name) (.file t.metadata)) st.fs,
        tr := st.tr ++ ((ts.take i).map (stageEvents flags base)).flatten ++
          [.ran (stageCmd flags base (ts.get ⟨i, hi⟩))] }) := by
  intro ts
  induction ts with
  | nil => intro i st hi; exact absurd hi (by simp)
  | cons t ts ih =>
      intro i st hi hvalid hok hfail
      cases i with
      | zero =>
          obtain ⟨pkg, hpkg⟩ := Option.isSome_iff_exists.mp
            (hvalid 0 (by simp) (Nat.le_refl 0))
          rw [templateLoop_cons_fail runProc flags base st t ts pkg hpkg
            (by simpa using hfail)]
          simp
      | succ i0 =>
          obtain ⟨pkg, hpkg⟩ := Option.isSome_iff_exists.mp
            (hvalid 0 (by simp) (Nat.zero_le _))
          have hi0 : i0 < ts.length := by simpa using Nat.lt_of_succ_lt_succ hi
          have hvalid0 : ∀ j (hj : j < ts.length), j ≤ i0 →
              (TELEPORT_PACKAGES_PER_BEAM_VERSION
                (ts.get ⟨j, hj⟩).beam_version_override).isSome = true := by
            intro j hj hji
            have := hvalid (j + 1) (by simpa using Nat.succ_lt_succ hj) (Nat.succ_le_succ hji)
            simpa using this
          have hok0 : ∀ j (hj : j < ts.length), j < i0 →
              runProc (stageCmd flags base (ts.get ⟨j, hj⟩)) = .exits 0 := by
            intro j hj hji
            have := hok (j + 1) (by simpa using Nat.succ_lt_succ hj) (Nat.succ_lt_succ hji)
            simpa using this
          have hfail0 : runProc (stageCmd flags base (ts.get ⟨i0, hi0⟩)) ≠ .exits 0 := by
            simpa using hfail
          rw [templateLoop_cons_ok runProc flags base st t ts pkg hpkg
            (by simpa using hok 0 (by simp) (Nat.succ_pos i0))]
          rw [ih i0 _ hi0 hvalid0 hok0 hfail0]
          simp [List.take_succ_cons, stageEvents, List.append_assoc]

/-- A fold of writes does not touch paths outside its write set. -/
theorem lookup_foldl_set_untouched (items : List (Path × Node)) :
    ∀ (fs0 : FS) (q : Path), q ∉ items.map Prod.fst →
    (items.foldl (fun fs pn => fs.set pn.1 pn.2) fs0).lookup q = fs0.lookup q := by
  induction items with
  | nil => intro fs0 q h; rfl
  | cons pn rest ih =>
      intro fs0 q h
      simp only [List.map_cons, List.mem_cons] at h
      push_neg at h
      rw [List.foldl_cons, ih (fs0.set pn.1 pn.2) q h.2,
        lookup_set_ne fs0 pn.1 pn.2 q h.1]

/-- A fold of writes at pairwise-distinct paths stores each written node. -/
theorem lookup_foldl_set_unique (items : List (Path × Node)) :
    ∀ (fs0 : FS) (p : Path) (n : Node), (p, n) ∈ items → (items.map Prod.fst).Nodup →
    (items.foldl (fun fs pn => fs.set pn.1 pn.2) fs0).lookup p = some n := by
  induction items with
  | nil => intro fs0 p n hmem _; simp at hmem
  | cons pn rest ih =>
      intro fs0 p n hmem huniq
      simp only [List.map_cons, List.nodup_cons] at huniq
      rcases List.mem_cons.mp hmem with h0 | h0
      · subst h0
        have hnotin : p ∉ rest.map Prod.fst := huniq.1
        rw [List.foldl_cons,
          lookup_foldl_set_untouched rest (fs0.set (p, n).1 (p, n).2) p hnotin,
          lookup_set_self]
      · rw [List.foldl_cons]
        exact ih _ _ _ h0 huniq.2

/-- The metadata path is injective in the template name (with or without the
override redirect). -/
theorem metaPathFor_inj (flags : Flags) (base : Path) {n1 n2 : String}
    (h : metaPathFor flags base n1 = metaPathFor flags base n2) : n1 = n2 := by
  unfold metaPathFor metadataTarget at h
  have hsuffix : n1 ++ "_metadata" = n2 ++ "_metadata" → n1 = n2 := by
    intro heq
    apply String.ext
    have := congrArg String.data heq
    rw [String.data_append, String.data_append] at this
    exact (List.append_left_inj _).mp this
  by_cases hov : flags.metadata_dir_override ≠ ""
  · rw [if_pos hov, if_pos hov, List.getLastD_concat, List.getLastD_concat] at h
    simp only [List.cons.injEq, and_true, true_and] at h
    exact hsuffix h
  · rw [if_neg hov, if_neg hov, List.append_right_inj] at h
    simp only [List.cons.injEq, and_true, true_and] at h
    exact hsuffix h

/-- Unfolding of `main` in a STAGING run: filter hidden, write the categories
document, then run the loops; a completed loop is exit code 0, a failed one
exit code 1. -/
theorem main_staging_eq (fuel : Nat) (runProc : List String → ProcOutcome) (flags : Flags)
    (config : List Category) (st : St)
    (hst : flags.release_type = STAGING_RELEASE_NAME)
    (hne : flags.release_type ≠ PRODUCTION_RELEASE_NAME) :
    main fuel runProc flags config st =
      match categoryLoop runProc flags (stagingBase flags)
        (write_category_information flags st (stagingBase flags)
          (filter_hidden config flags.include_hidden))
        (filter_hidden config flags.include_hidden) with
      | .error e => .error e
      | .ok (.cont st1) => .ok (0, st1)
      | .ok (.fail1 st1) => .ok (1, st1) := by
  unfold main
  rw [if_neg hne, if_pos hst]
  rfl

/-- C5: a STAGING run writes the category document exactly once, before any
template is staged, then visits the flattened template list in config order;
the first failing template makes `main` return exit code 1 immediately — the
trace ends at that template's launch, no later template is attempted — and
the store holds exactly the category document plus the metadata of the
already-staged templates, which (under the per-release name-uniqueness
invariant) are all still present at their paths. -/
theorem claimC5 (fuel : Nat) (runProc : List String → ProcOutcome) (flags : Flags)
    (config : List Category) (st : St) (cats : List Category) (ts : List Template) (i : Nat)
    (hst : flags.release_type = STAGING_RELEASE_NAME)
    (hcats : cats = filter_hidden config flags.include_hidden)
    (hts : ts = flatTemplates cats)
    (hi : i < ts.length)
    (hvalid : ∀ j (hj : j < ts.length), j ≤ i →
      (TELEPORT_PACKAGES_PER_BEAM_VERSION (ts.get ⟨j, hj⟩).beam_version_override).isSome = true)
    (hok : ∀ j (hj : j < ts.length), j < i →
      runProc (stageCmd flags (stagingBase flags) (ts.get ⟨j, hj⟩)) = .exits 0)
    (hfail : runProc (stageCmd flags (stagingBase flags) (ts.get ⟨i, hi⟩)) ≠ .exits 0) :
    main fuel runProc flags config st = .ok (1,
      { fs := (ts.take i).foldl
          (fun fs t => fs.set (metaPathFor flags (stagingBase flags) t.name) (.file t.metadata))
          (st.fs.set (catDocPath flags (stagingBase flags)) (.file (categoriesJson cats))),
        tr := st.tr ++ [.wrote (catDocPath flags (stagingBase flags))] ++
          ((ts.take i).map (stageEvents flags (stagingBase flags))).flatten ++
          [.ran (stageCmd flags (stagingBase flags) (ts.get ⟨i, hi⟩))] }) ∧
    ((ts.map (fun t => t.name)).Nodup → ∀ j (hj : j < i),
      ((ts.take i).foldl
          (fun fs t => fs.set (metaPathFor flags (stagingBase flags) t.name) (.file t.metadata))
          (st.fs.set (catDocPath flags (stagingBase flags)) (.file (categoriesJson cats)))).lookup
        (metaPathFor flags (stagingBase flags) (ts.get ⟨j, Nat.lt_trans hj hi⟩).name) =
        some (.file (ts.get ⟨j, Nat.lt_trans hj hi⟩).metadata)) := by
  subst hts
  subst hcats
  have hne : flags.release_type ≠ PRODUCTION_RELEASE_NAME := by
    rw [hst]
    decide
  constructor
  · rw [main_staging_eq fuel runProc flags config st hst hne,
      categoryLoop_eq_templateLoop]
    have hwc : write_category_information flags st (stagingBase flags)
        (filter_hidden config flags.include_hidden) =
        { fs := st.fs.set (catDocPath flags (stagingBase flags))
            (.file (categoriesJson (filter_hidden config flags.include_hidden))),
          tr := st.tr ++ [.wrote (catDocPath flags (stagingBase flags))] } := rfl
    rw [hwc, templateLoop_fail_fast runProc flags (stagingBase flags)
      (flatTemplates (filter_hidden config flags.include_hidden)) i _ hi hvalid hok hfail]
  · intro hnodup j hj
    set ts := flatTemplates (filter_hidden config flags.include_hidden) with hts
    set base := stagingBase flags with hbase
    set fs0 := st.fs.set (catDocPath flags base) (.file (categoriesJson
      (filter_hidden config flags.include_hidden))) with hfs0
    have hjlen : j < (ts.take i).length := by
      rw [List.length_take]
      omega
    have hget : (ts.take i).get ⟨j, hjlen⟩ = ts.get ⟨j, Nat.lt_trans hj hi⟩ := by
      simp only [List.get_eq_getElem]
      exact (List.getElem_take' ts (Nat.lt_trans hj hi) hj).symm
    have hmem : ts.get ⟨j, Nat.lt_trans hj hi⟩ ∈ ts.take i := by
      rw [← hget]
      exact List.get_mem _ _ _
    have hfold : (ts.take i).foldl
        (fun fs t => fs.set (metaPathFor flags base t.name) (.file t.metadata)) fs0 =
        ((ts.take i).map
          (fun t => (metaPathFor flags base t.name, Node.file t.metadata))).foldl
          (fun fs pn => fs.set pn.1 pn.2) fs0 := by
      rw [List.foldl_map]
    rw [hfold]
    apply lookup_foldl_set_unique
    · exact List.mem_map.mpr ⟨ts.get ⟨j, Nat.lt_trans hj hi⟩, hmem, rfl⟩
    · have h1 : ((ts.take i).map (fun t => t.name)).Nodup := by
        rw [List.map_take]
        exact ((ts.map (fun t => t.name)).take_sublist i).nodup hnodup
      have h2 : ((ts.take i).map
          (fun t => (metaPathFor flags base t.name, Node.file t.metadata))).map Prod.fst =
          ((ts.take i).map (fun t => t.name)).map (metaPathFor flags base) := by
        rw [List.map_map, List.map_map]
        rfl
      rw [h2]
      exact h1.map (fun a b hab => metaPathFor_inj flags base hab)

/-- Witness for C5: with the second of two templates failing, the run returns
exit code 1, the first template's metadata is present, and the second
template's metadata was never written. -/
theorem claimC5_witness :
    ∃ stf, main 0 runProc5 flags5 config5 ⟨⟨[]⟩, []⟩ = .ok (1, stf) ∧
      stf.fs.lookup ["gs://s", "rc", "T1_metadata"] = some (.file "m1") ∧
      stf.fs.lookup ["gs://s", "rc", "T2_metadata"] = none ∧
      stf.tr = [.wrote ["gs://s", "rc", "ui_metadata", "categories.json"],
        .ran (stageCmd flags5 (stagingBase flags5) tmpl1),
        .wrote ["gs://s", "rc", "T1_metadata"],
        .ran (stageCmd flags5 (stagingBase flags5) tmpl2)] := by
  have h := claimC5 0 runProc5 flags5 config5 ⟨⟨[]⟩, []⟩ config5 [tmpl1, tmpl2] 1
    rfl rfl rfl (by decide) (by decide) (by decide) (by decide)
  refine ⟨_, h.1, ?_, ?_, ?_⟩
  · have h2 := h.2 (by decide) 0 (by decide)
    exact h2
  · decide
  · decide

/-! ### Recursive tree copy (C8) -/

/-- No list is a prefix of two incomparable roots. -/
theorem Disj.not_common {a b : Path} (h : Disj a b) {l : Path}
    (ha : a <+: l) (hb : b <+: l) : False := by
  rcases List.prefix_or_prefix_of_prefix ha hb with hc | hc
  · exact h.1 hc
  · exact h.2 hc

/-- A same-name-child prefix forces a root prefix. -/
theorem prefix_of_append_singleton {a b : Path} {e : String}
    (h : a ++ [e] <+: b ++ [e]) : a <+: b := by
  rcases Nat.eq_or_lt_of_le (by simpa using h.length_le) with hl | hl
  · have heq : a ++ [e] = b ++ [e] := h.eq_of_length (by simp [hl])
    have hab : a = b := by simpa using heq
    subst hab
    exact List.prefix_rfl
  · have hle : (a ++ [e]).length ≤ b.length := by
      simp only [List.length_append, List.length_cons, List.length_nil]
      omega
    have hab : a ++ [e] <+: b :=
      List.prefix_of_prefix_length_le h (List.prefix_append b [e]) hle
    exact (List.prefix_append a [e]).trans hab

/-- Disjointness is inherited by same-name children. -/
theorem Disj.child {a b : Path} (h : Disj a b) (e : String) : Disj (a ++ [e]) (b ++ [e]) :=
  ⟨fun hc => h.1 (prefix_of_append_singleton hc),
   fun hc => h.2 (prefix_of_append_singleton hc)⟩

/-- `MkDir` succeeded: either it created the directory at an absent path or
the directory was already there. -/
theorem mkDir_ok_inv {fs : FS} {p : Path} {fs' : FS} (h : fs.mkDir p = .ok fs') :
    (fs.lookup p = none ∧ fs' = fs.set p .dir) ∨ (fs.lookup p = some .dir ∧ fs' = fs) := by
  unfold FS.mkDir at h
  cases hl : fs.lookup p with
  | none =>
      rw [hl] at h
      simp only [Except.ok.injEq] at h
      exact Or.inl ⟨rfl, h.symm⟩
  | some n =>
      cases n with
      | file c => rw [hl] at h; simp at h
      | dir =>
          rw [hl] at h
          simp only [Except.ok.injEq] at h
          exact Or.inr ⟨rfl, h.symm⟩

/-- `Copy` succeeded: the source was a file, the destination now holds its
content, and without overwrite the destination was previously absent. -/
theorem copy_ok_inv {fs : FS} {sp dp : Path} {ow : Bool} {fs' : FS}
    (h : fs.copy sp dp ow = .ok fs') :
    ∃ c, fs.lookup sp = some (.file c) ∧ fs' = fs.set dp (.file c) ∧
      (ow = false → fs.pathExists dp = false) := by
  unfold FS.copy at h
  split at h
  next c heq =>
    split at h
    · simp at h
    · next hc =>
        simp only [Except.ok.injEq] at h
        refine ⟨c, heq, h.symm, ?_⟩
        intro how
        subst how
        push_neg at hc
        by_cases hex : fs.pathExists dp = true
        · exact absurd (hc hex) (by simp)
        · simpa using hex
  next =>
    simp at h

/-- Lookup succeeds exactly on stored keys. -/
theorem lookup_isSome_iff_mem_keys (fs : FS) (p : Path) :
    (fs.lookup p).isSome = true ↔ p ∈ fs.keys := by
  unfold FS.lookup FS.keys
  induction fs.entries with
  | nil => simp [lookupEntries]
  | cons e es ih =>
      rw [lookupEntries]
      by_cases he : e.1 = p
      · rw [if_pos he]
        simp only [Option.isSome_some, List.map_cons, List.mem_cons, true_iff]
        exact Or.inl he.symm
      · rw [if_neg he]
        rw [ih]
        simp only [List.map_cons, List.mem_cons]
        constructor
        · exact Or.inr
        · rintro (hh | hh)
          · exact absurd hh.symm he
          · exact hh

/-- A stored child appears in the directory listing. -/
theorem mem_listDirectory {fs : FS} {p : Path} {e : String}
    (h : (fs.lookup (p ++ [e])).isSome = true) : e ∈ fs.listDirectory p := by
  have hmem : p ++ [e] ∈ fs.keys := (lookup_isSome_iff_mem_keys fs (p ++ [e])).mp h
  unfold FS.listDirectory
  refine List.mem_filterMap.mpr ⟨p ++ [e], hmem, ?_⟩
  unfold childOf
  rw [if_pos (List.dropLast_concat)]
  exact List.getLast?_concat p

/-- A `childOf` hit determines the key. -/
theorem childOf_inj {p : Path} {k : Path} {e : String}
    (h : childOf p k = some e) : k = p ++ [e] := by
  unfold childOf at h
  by_cases hd : k.dropLast = p
  · rw [if_pos hd] at h
    rcases List.getLast?_eq_some_iff.mp h with ⟨l, hl⟩
    subst hl
    rw [List.dropLast_concat] at hd
    rw [hd]
  · rw [if_neg hd] at h
    simp at h

/-- With unique keys, a directory listing has no duplicate names. -/
theorem listDirectory_nodup (fs : FS) (p : Path) (h : NodupKeys fs) :
    (fs.listDirectory p).Nodup := by
  unfold FS.listDirectory
  exact List.Nodup.filterMap
    (fun k1 k2 e h1 h2 => by
      simp only [Option.mem_def] at h1 h2
      rw [childOf_inj h1, childOf_inj h2])
    h

/-- Doing nothing is confined. -/
theorem GoodAt.refl (fs : FS) (d : Path) : GoodAt fs d fs :=
  ⟨fun _ _ => rfl, ⟨[], by simp, fun q hq => absurd hq (List.not_mem_nil q)⟩, id⟩

/-- Confined effects compose when the second region sits inside the first. -/
theorem GoodAt.comp {fs1 fs2 fs3 : FS} {d1 d2 : Path}
    (h12 : GoodAt fs1 d1 fs2) (h23 : GoodAt fs2 d2 fs3)
    (hsub : ∀ q, d2 <+: q ∧ q ≠ d2 → d1 <+: q ∧ q ≠ d1) : GoodAt fs1 d1 fs3 := by
  obtain ⟨l12, ⟨ex12, hk12, hm12⟩, n12⟩ := h12
  obtain ⟨l23, ⟨ex23, hk23, hm23⟩, n23⟩ := h23
  refine ⟨?_, ⟨ex12 ++ ex23, ?_, ?_⟩, fun hn => n23 (n12 hn)⟩
  · intro q hq
    have hq2 : ¬(d2 <+: q ∧ q ≠ d2) := fun hc => hq (hsub q hc)
    rw [l23 q hq2, l12 q hq]
  · rw [hk23, hk12, List.append_assoc]
  · intro q hq
    rcases List.mem_append.mp hq with hh | hh
    · exact hm12 q hh
    · exact hsub q (hm23 q hh)

/-- Writing one node at a strict extension of `d` is confined below `d`. -/
theorem goodAt_set {fs : FS} {p : Path} {n : Node} {d : Path}
    (hp : d <+: p ∧ p ≠ d) : GoodAt fs d (fs.set p n) := by
  refine ⟨?_, ?_, nodupKeys_set fs p n⟩
  · intro q hq
    have hqp : q ≠ p := fun hh => hq (hh ▸ hp)
    exact lookup_set_ne fs p n q hqp
  · rcases keys_set fs p n with hh | hh
    · exact ⟨[], by simp [hh], fun q hq => absurd hq (List.not_mem_nil q)⟩
    · refine ⟨[p], hh, fun q hq => ?_⟩
      have hqp := List.mem_singleton.mp hq
      subst hqp
      exact hp

/-- Strict extensions of a child are strict extensions of the parent. -/
theorem strictExt_child {d : Path} {e : String} {q : Path}
    (h : d ++ [e] <+: q ∧ q ≠ d ++ [e]) : d <+: q ∧ q ≠ d := by
  refine ⟨(List.prefix_append d [e]).trans h.1, ?_⟩
  intro hqd
  subst hqd
  have hlen := h.1.length_le
  simp only [List.length_append, List.length_cons, List.length_nil] at hlen
  omega

/-- A child path strictly extends its parent. -/
theorem child_strictExt (d : Path) (e : String) : d <+: d ++ [e] ∧ d ++ [e] ≠ d := by
  refine ⟨List.prefix_append d [e], ?_⟩
  intro hh
  have hlen := congrArg List.length hh
  simp only [List.length_append, List.length_cons, List.length_nil] at hlen
  omega

/-- Invert a successful bind in the error monad. -/
theorem bind_eq_ok {a b : Type} {x : Except Err a} {f : a → Except Err b} {v : b}
    (h : (x >>= f) = .ok v) : ∃ u, x = .ok u ∧ f u = .ok v := by
  cases x with
  | error e => rw [bind_error_eq] at h; exact absurd h (by simp)
  | ok u => rw [bind_ok_eq] at h; exact ⟨u, rfl, h⟩

/-- Unfold one step of the per-entry copy loop on success. -/
theorem copyEntries_cons_ok {rec : FS → Path → Path → Bool → Except Err FS}
    {src dst : Path} {ow : Bool} {fs : FS} {e : String} {es : List String} {fs2 : FS}
    (h : copyEntries rec src dst ow fs (e :: es) = .ok fs2) :
    ∃ fs1, (if fs.isDirectory (src ++ [e]) = true
        then fs.mkDir (dst ++ [e]) >>= fun fs0 => rec fs0 (src ++ [e]) (dst ++ [e]) ow
        else fs.copy (src ++ [e]) (dst ++ [e]) ow) = .ok fs1 ∧
      copyEntries rec src dst ow fs1 es = .ok fs2 := by
  rw [copyEntries] at h
  by_cases hd : fs.isDirectory (src ++ [e]) = true
  · rw [if_pos hd] at h
    rcases bind_eq_ok h with ⟨fs0, hmk, h2⟩
    rcases bind_eq_ok h2 with ⟨fs1, hrc, h3⟩
    refine ⟨fs1, ?_, h3⟩
    rw [if_pos hd, hmk, bind_ok_eq]
    exact hrc
  · rw [if_neg hd] at h
    rcases bind_eq_ok h with ⟨fs1, hcp, h2⟩
    refine ⟨fs1, ?_, h2⟩
    rw [if_neg hd]
    exact hcp

/-- The per-entry loop is confined below `dst` whenever the recursive calls
are confined below their destination. -/
theorem copyEntries_good (rec : FS → Path → Path → Bool → Except Err FS)
    (hrec : ∀ fs sp dp ow fs2, rec fs sp dp ow = .ok fs2 → GoodAt fs dp fs2)
    (src dst : Path) (ow : Bool) :
    ∀ es fs fs2, copyEntries rec src dst ow fs es = .ok fs2 → GoodAt fs dst fs2 := by
  intro es
  induction es with
  | nil =>
      intro fs fs2 h
      rw [copyEntries] at h
      simp only [Except.ok.injEq] at h
      subst h
      exact GoodAt.refl fs dst
  | cons e es ih =>
      intro fs fs2 h
      rcases copyEntries_cons_ok h with ⟨fs1, hstep, hrest⟩
      have hstep_good : GoodAt fs dst fs1 := by
        by_cases hd : fs.isDirectory (src ++ [e]) = true
        · rw [if_pos hd] at hstep
          rcases bind_eq_ok hstep with ⟨fs0, hmk, hrc⟩
          have hmk_good : GoodAt fs dst fs0 := by
            rcases mkDir_ok_inv hmk with ⟨_, hset⟩ | ⟨_, hid⟩
            · rw [hset]
              exact goodAt_set (child_strictExt dst e)
            · rw [hid]
              exact GoodAt.refl fs dst
          exact hmk_good.comp (hrec _ _ _ _ _ hrc) (fun q hq => strictExt_child hq)
        · rw [if_neg hd] at hstep
          rcases copy_ok_inv hstep with ⟨c, _, hset, _⟩
          rw [hset]
          exact goodAt_set (child_strictExt dst e)
      exact hstep_good.comp (ih fs1 fs2 hrest) (fun q hq => hq)

/-- A successful recursive copy is confined below its destination. -/
theorem copyRecursively_good :
    ∀ fuel fs src dst ow fs2, CopyRecursively fuel fs src dst ow = .ok fs2 →
      GoodAt fs dst fs2 := by
  intro fuel
  induction fuel with
  | zero =>
      intro fs src dst ow fs2 h
      rw [CopyRecursively] at h
      exact absurd h (by simp)
  | succ n ih =>
      intro fs src dst ow fs2 h
      rw [CopyRecursively] at h
      exact copyEntries_good (CopyRecursively n)
        (fun fs sp dp ow fs2 hh => ih fs sp dp ow fs2 hh) src dst ow _ fs fs2 h

/-- When the roots are disjoint, no source-side path lies below `dst`. -/
theorem disj_no_below {src dst : Path} (h : Disj src dst) (rel : Path) :
    ¬ dst <+: src ++ rel := by
  intro hc
  rcases le_or_lt dst.length src.length with hl | hl
  · exact h.2 (List.prefix_of_prefix_length_le hc (List.prefix_append src rel) hl)
  · exact h.1 (List.prefix_of_prefix_length_le (List.prefix_append src rel) hc (Nat.le_of_lt hl))

/-- Peeling the first component off a reachable path. -/
theorem reachNode_tail {fs : FS} {src : Path} {e : String} {rel : Path} {n : Node}
    (h : ReachNode fs src (e :: rel) n) (hrel : rel ≠ []) :
    ReachNode fs (src ++ [e]) rel n := by
  obtain ⟨_, hlook, hmid⟩ := h
  refine ⟨hrel, ?_, ?_⟩
  · rw [List.append_assoc]
    exact hlook
  · intro m hm hpos
    have h1 : m + 1 < (e :: rel).length := by
      simp only [List.length_cons]
      omega
    have hstep := hmid (m + 1) h1 (Nat.succ_pos m)
    rw [List.take_succ_cons] at hstep
    rw [List.append_assoc]
    exact hstep

/-- Reachability transfers to a store that agrees on the source subtree. -/
theorem reachNode_of_agree {fs fs2 : FS} {src rel : Path} {n : Node}
    (hag : ∀ rel2, fs2.lookup (src ++ rel2) = fs.lookup (src ++ rel2))
    (h : ReachNode fs src rel n) : ReachNode fs2 src rel n := by
  obtain ⟨hne, hlook, hmid⟩ := h
  exact ⟨hne, (hag rel).trans hlook,
    fun m hm hpos => (hag (rel.take m)).trans (hmid m hm hpos)⟩

/-- One entry step touches only paths below its destination child and keeps
keys unique. -/
theorem copyStep_pres (rec : FS → Path → Path → Bool → Except Err FS)
    (hgood : ∀ fs sp dp ow fs2, rec fs sp dp ow = .ok fs2 → GoodAt fs dp fs2)
    {fs : FS} {src dst : Path} {a : String} {ow : Bool} {fs1 : FS}
    (hstep : (if fs.isDirectory (src ++ [a]) = true
        then fs.mkDir (dst ++ [a]) >>= fun fs0 => rec fs0 (src ++ [a]) (dst ++ [a]) ow
        else fs.copy (src ++ [a]) (dst ++ [a]) ow) = .ok fs1) :
    (∀ q, ¬ (dst ++ [a]) <+: q → fs1.lookup q = fs.lookup q) ∧
    (NodupKeys fs → NodupKeys fs1) := by
  by_cases hd : fs.isDirectory (src ++ [a]) = true
  · rw [if_pos hd] at hstep
    rcases bind_eq_ok hstep with ⟨fs0, hmk, hrc⟩
    have hg := hgood _ _ _ _ _ hrc
    rcases mkDir_ok_inv hmk with ⟨_, hset⟩ | ⟨_, hid⟩
    · subst hset
      refine ⟨?_, ?_⟩
      · intro q hq
        have hqne : q ≠ dst ++ [a] := fun hh => hq (hh ▸ List.prefix_rfl)
        rw [hg.1 q (fun hc => hq hc.1), lookup_set_ne fs _ _ q hqne]
      · intro hn
        exact hg.2.2 (nodupKeys_set fs _ _ hn)
    · subst hid
      exact ⟨fun q hq => hg.1 q (fun hc => hq hc.1), hg.2.2⟩
  · rw [if_neg hd] at hstep
    rcases copy_ok_inv hstep with ⟨c, _, hset, _⟩
    subst hset
    refine ⟨?_, nodupKeys_set fs _ _⟩
    intro q hq
    have hqne : q ≠ dst ++ [a] := fun hh => hq (hh ▸ List.prefix_rfl)
    exact lookup_set_ne fs _ _ q hqne

/-- The per-entry loop never touches a path outside the regions below the
destination children of its entries. -/
theorem copyEntries_below (rec : FS → Path → Path → Bool → Except Err FS)
    (hgood : ∀ fs sp dp ow fs2, rec fs sp dp ow = .ok fs2 → GoodAt fs dp fs2)
    (src dst : Path) (ow : Bool) :
    ∀ es fs fs2, copyEntries rec src dst ow fs es = .ok fs2 →
      ∀ q, ¬ Below (es.map (fun x => dst ++ [x])) q → fs2.lookup q = fs.lookup q := by
  intro es
  induction es with
  | nil =>
      intro fs fs2 h q _
      rw [copyEntries] at h
      simp only [Except.ok.injEq] at h
      subst h
      rfl
  | cons a es ih =>
      intro fs fs2 h q hq
      rcases copyEntries_cons_ok h with ⟨fs1, hstep, hrest⟩
      have hq_head : ¬ (dst ++ [a]) <+: q := fun hc => hq ⟨dst ++ [a], by simp, hc⟩
      have hq_tail : ¬ Below (es.map (fun x => dst ++ [x])) q := by
        rintro ⟨d, hd, hdq⟩
        refine hq ⟨d, ?_, hdq⟩
        simp only [List.map_cons, List.mem_cons]
        exact Or.inr hd
      rw [ih fs1 fs2 hrest q hq_tail, (copyStep_pres rec hgood hstep).1 q hq_head]

/-- The per-entry loop mirrors every source node reachable through one of
its entries, given confined and mirroring recursive calls. -/
theorem copyEntries_mirror (rec : FS → Path → Path → Bool → Except Err FS)
    (hgood : ∀ fs sp dp ow fs2, rec fs sp dp ow = .ok fs2 → GoodAt fs dp fs2)
    (hmir : MirrorsAt rec)
    (src dst : Path) (hdisj : Disj src dst) (ow : Bool) :
    ∀ es fs fs2, NodupKeys fs → es.Nodup →
      copyEntries rec src dst ow fs es = .ok fs2 →
      ∀ e rel n, e ∈ es → ReachNode fs src (e :: rel) n →
        fs2.lookup (dst ++ (e :: rel)) = some n := by
  intro es
  induction es with
  | nil =>
      intro fs fs2 _ _ _ e rel n he _
      exact absurd he (List.not_mem_nil e)
  | cons a es ih =>
      intro fs fs2 hnodup hes h e rel n he hreach
      rcases copyEntries_cons_ok h with ⟨fs1, hstep, hrest⟩
      have hpres := copyStep_pres rec hgood hstep
      have hnodup1 : NodupKeys fs1 := hpres.2 hnodup
      have hes_tail : es.Nodup := (List.nodup_cons.mp hes).2
      have ha_notin : a ∉ es := (List.nodup_cons.mp hes).1
      rcases List.mem_cons.mp he with heq | he_tail
      · subst heq
        have hafter : fs1.lookup (dst ++ (e :: rel)) = some n := by
          by_cases hd : fs.isDirectory (src ++ [e]) = true
          · rw [if_pos hd] at hstep
            rcases bind_eq_ok hstep with ⟨fs0, hmk, hrc⟩
            cases rel with
            | nil =>
                have hl : fs.lookup (src ++ [e]) = some n := hreach.2.1
                have hn : n = Node.dir := by
                  unfold FS.isDirectory at hd
                  rw [hl] at hd
                  cases n with
                  | dir => rfl
                  | file c => simp at hd
                subst hn
                have h0 : fs0.lookup (dst ++ [e]) = some Node.dir := by
                  rcases mkDir_ok_inv hmk with ⟨_, hset⟩ | ⟨hdir, hid⟩
                  · subst hset
                    exact lookup_set_self fs _ _
                  · subst hid
                    exact hdir
                have hg := hgood _ _ _ _ _ hrc
                rw [hg.1 (dst ++ [e]) (fun hc => hc.2 rfl)]
                exact h0
            | cons r rs =>
                have htail : ReachNode fs (src ++ [e]) (r :: rs) n :=
                  reachNode_tail hreach (by simp)
                have hag : ∀ rel2,
                    fs0.lookup ((src ++ [e]) ++ rel2) = fs.lookup ((src ++ [e]) ++ rel2) := by
                  intro rel2
                  rcases mkDir_ok_inv hmk with ⟨_, hset⟩ | ⟨_, hid⟩
                  · subst hset
                    refine lookup_set_ne fs _ _ _ ?_
                    intro hh
                    apply disj_no_below hdisj ([e] ++ rel2)
                    rw [← List.append_assoc, hh]
                    exact List.prefix_append dst [e]
                  · subst hid
                    rfl
                have hreach0 : ReachNode fs0 (src ++ [e]) (r :: rs) n :=
                  reachNode_of_agree hag htail
                have hnodup0 : NodupKeys fs0 := by
                  rcases mkDir_ok_inv hmk with ⟨_, hset⟩ | ⟨_, hid⟩
                  · subst hset
                    exact nodupKeys_set fs _ _ hnodup
                  · subst hid
                    exact hnodup
                have hmir1 := hmir fs0 (src ++ [e]) (dst ++ [e]) ow fs1 hnodup0
                  (hdisj.child e) hrc (r :: rs) n hreach0
                rw [show dst ++ (e :: r :: rs) = (dst ++ [e]) ++ (r :: rs) by simp]
                exact hmir1
          · rw [if_neg hd] at hstep
            rcases copy_ok_inv hstep with ⟨c, hlsrc, hset, _⟩
            cases rel with
            | nil =>
                have hl : fs.lookup (src ++ [e]) = some n := hreach.2.1
                have hcn : n = Node.file c := by
                  rw [hl] at hlsrc
                  exact Option.some.inj hlsrc
                subst hcn
                subst hset
                exact lookup_set_self fs _ _
            | cons r rs =>
                exfalso
                have hm := hreach.2.2 1 (by
                  simp only [List.length_cons]
                  omega) (by omega)
                simp only [List.take_succ_cons, List.take_zero] at hm
                apply hd
                unfold FS.isDirectory
                rw [hm]
        have hnb : ¬ Below (es.map (fun x => dst ++ [x])) (dst ++ (e :: rel)) := by
          rintro ⟨d, hdmem, hdpre⟩
          rcases List.mem_map.mp hdmem with ⟨x, hx, rfl⟩
          have hpre : [x] <+: e :: rel := (List.prefix_append_right_inj dst).mp hdpre
          rcases hpre with ⟨t, ht⟩
          simp only [List.singleton_append] at ht
          injection ht with h1 _
          subst h1
          exact ha_notin hx
        rw [copyEntries_below rec hgood src dst ow es fs1 fs2 hrest
          (dst ++ (e :: rel)) hnb]
        exact hafter
      · have hag : ∀ rel2, fs1.lookup (src ++ rel2) = fs.lookup (src ++ rel2) := by
          intro rel2
          refine hpres.1 (src ++ rel2) ?_
          intro hc
          exact disj_no_below hdisj rel2 ((List.prefix_append dst [a]).trans hc)
        have hreach1 : ReachNode fs1 src (e :: rel) n := reachNode_of_agree hag hreach
        exact ih fs1 fs2 hnodup1 hes_tail hrest e rel n he_tail hreach1

/-- Every fueled recursive copy mirrors the reachable source tree. -/
theorem copyRecursively_mirror : ∀ fuel, MirrorsAt (CopyRecursively fuel) := by
  intro fuel
  induction fuel with
  | zero =>
      intro fs sp dp ow fs2 _ _ h
      rw [CopyRecursively] at h
      exact absurd h (by simp)
  | succ m ih =>
      intro fs sp dp ow fs2 hnodup hdisj h rel n hreach
      rw [CopyRecursively] at h
      cases rel with
      | nil => exact absurd rfl hreach.1
      | cons e rs =>
          have hmem : e ∈ fs.listDirectory sp := by
            apply mem_listDirectory
            cases rs with
            | nil =>
                rw [hreach.2.1]
                rfl
            | cons r rs2 =>
                have hm := hreach.2.2 1 (by
                  simp only [List.length_cons]
                  omega) (by omega)
                simp only [List.take_succ_cons, List.take_zero] at hm
                rw [hm]
                rfl
          exact copyEntries_mirror (CopyRecursively m)
            (fun fsa spa dpa owa fsb hh => copyRecursively_good m fsa spa dpa owa fsb hh)
            ih sp dp hdisj ow (fs.listDirectory sp) fs fs2 hnodup
            (listDirectory_nodup fs sp hnodup) h e rs n hmem hreach

/-- Path existence survives a write. -/
theorem pathExists_set_mono {fs : FS} {p q : Path} {n : Node}
    (h : fs.pathExists q = true) : (fs.set p n).pathExists q = true := by
  by_cases hq : q = p
  · subst hq
    unfold FS.pathExists
    rw [lookup_set_self]
    rfl
  · unfold FS.pathExists at h ⊢
    rw [lookup_set_ne fs p n q hq]
    exact h

/-- Path existence survives a confined effect. -/
theorem goodAt_exists_mono {fs g : FS} {d : Path} (hg : GoodAt fs d g) {q : Path}
    (h : fs.pathExists q = true) : g.pathExists q = true := by
  obtain ⟨_, ⟨ex, hk, _⟩, _⟩ := hg
  unfold FS.pathExists at h ⊢
  rw [lookup_isSome_iff_mem_keys] at h ⊢
  rw [hk]
  exact List.mem_append.mpr (Or.inl h)

/-- One entry step preserves path existence. -/
theorem copyStep_exists (rec : FS → Path → Path → Bool → Except Err FS)
    (hgood : ∀ fs sp dp ow fs2, rec fs sp dp ow = .ok fs2 → GoodAt fs dp fs2)
    {fs : FS} {src dst : Path} {a : String} {ow : Bool} {fs1 : FS}
    (hstep : (if fs.isDirectory (src ++ [a]) = true
        then fs.mkDir (dst ++ [a]) >>= fun fs0 => rec fs0 (src ++ [a]) (dst ++ [a]) ow
        else fs.copy (src ++ [a]) (dst ++ [a]) ow) = .ok fs1)
    {q : Path} (h : fs.pathExists q = true) : fs1.pathExists q = true := by
  by_cases hd : fs.isDirectory (src ++ [a]) = true
  · rw [if_pos hd] at hstep
    rcases bind_eq_ok hstep with ⟨fs0, hmk, hrc⟩
    have h0 : fs0.pathExists q = true := by
      rcases mkDir_ok_inv hmk with ⟨_, hset⟩ | ⟨_, hid⟩
      · subst hset
        exact pathExists_set_mono h
      · subst hid
        exact h
    exact goodAt_exists_mono (hgood _ _ _ _ _ hrc) h0
  · rw [if_neg hd] at hstep
    rcases copy_ok_inv hstep with ⟨c, _, hset, _⟩
    subst hset
    exact pathExists_set_mono h

/-- The per-entry loop fails on a clashing entry, given confined and
clash-respecting recursive calls. -/
theorem copyEntries_clash (rec : FS → Path → Path → Bool → Except Err FS)
    (hgood : ∀ fs sp dp ow fs2, rec fs sp dp ow = .ok fs2 → GoodAt fs dp fs2)
    (hclash : ClashAt rec)
    (src dst : Path) (hdisj : Disj src dst) :
    ∀ es fs fs2, NodupKeys fs →
      ∀ e rel c, e ∈ es → ReachNode fs src (e :: rel) (Node.file c) →
        fs.pathExists (dst ++ (e :: rel)) = true →
        copyEntries rec src dst false fs es ≠ .ok fs2 := by
  intro es
  induction es with
  | nil =>
      intro fs fs2 _ e rel c he _ _ _
      exact absurd he (List.not_mem_nil e)
  | cons a es ih =>
      intro fs fs2 hnodup e rel c he hreach hex h
      rcases copyEntries_cons_ok h with ⟨fs1, hstep, hrest⟩
      rcases List.mem_cons.mp he with heq | he_tail
      · subst heq
        cases rel with
        | nil =>
            have hl : fs.lookup (src ++ [e]) = some (Node.file c) := hreach.2.1
            have hd : ¬ fs.isDirectory (src ++ [e]) = true := by
              unfold FS.isDirectory
              rw [hl]
              simp
            rw [if_neg hd] at hstep
            rcases copy_ok_inv hstep with ⟨c2, _, _, hnoex⟩
            rw [hnoex rfl] at hex
            exact absurd hex (by simp)
        | cons r rs =>
            have hm := hreach.2.2 1 (by
              simp only [List.length_cons]
              omega) (by omega)
            simp only [List.take_succ_cons, List.take_zero] at hm
            have hd : fs.isDirectory (src ++ [e]) = true := by
              unfold FS.isDirectory
              rw [hm]
            rw [if_pos hd] at hstep
            rcases bind_eq_ok hstep with ⟨fs0, hmk, hrc⟩
            have htail : ReachNode fs (src ++ [e]) (r :: rs) (Node.file c) :=
              reachNode_tail hreach (by simp)
            have hag : ∀ rel2,
                fs0.lookup ((src ++ [e]) ++ rel2) = fs.lookup ((src ++ [e]) ++ rel2) := by
              intro rel2
              rcases mkDir_ok_inv hmk with ⟨_, hset⟩ | ⟨_, hid⟩
              · subst hset
                refine lookup_set_ne fs _ _ _ ?_
                intro hh
                apply disj_no_below hdisj ([e] ++ rel2)
                rw [← List.append_assoc, hh]
                exact List.prefix_append dst [e]
              · subst hid
                rfl
            have hreach0 : ReachNode fs0 (src ++ [e]) (r :: rs) (Node.file c) :=
              reachNode_of_agree hag htail
            have hnodup0 : NodupKeys fs0 := by
              rcases mkDir_ok_inv hmk with ⟨_, hset⟩ | ⟨_, hid⟩
              · subst hset
                exact nodupKeys_set fs _ _ hnodup
              · subst hid
                exact hnodup
            have hex0 : fs0.pathExists ((dst ++ [e]) ++ (r :: rs)) = true := by
              have hex1 : fs.pathExists ((dst ++ [e]) ++ (r :: rs)) = true := by
                rw [List.append_assoc]
                exact hex
              rcases mkDir_ok_inv hmk with ⟨_, hset⟩ | ⟨_, hid⟩
              · subst hset
                exact pathExists_set_mono hex1
              · subst hid
                exact hex1
            exact hclash fs0 (src ++ [e]) (dst ++ [e]) fs1 hnodup0 (hdisj.child e)
              (r :: rs) c hreach0 hex0 hrc
      · have hpres := copyStep_pres rec hgood hstep
        have hag : ∀ rel2, fs1.lookup (src ++ rel2) = fs.lookup (src ++ rel2) := by
          intro rel2
          refine hpres.1 (src ++ rel2) ?_
          intro hc
          exact disj_no_below hdisj rel2 ((List.prefix_append dst [a]).trans hc)
        have hreach1 : ReachNode fs1 src (e :: rel) (Node.file c) :=
          reachNode_of_agree hag hreach
        have hex1 : fs1.pathExists (dst ++ (e :: rel)) = true :=
          copyStep_exists rec hgood hstep hex
        exact ih fs1 fs2 (hpres.2 hnodup) e rel c he_tail hreach1 hex1 hrest

/-- Every fueled recursive copy respects the no-overwrite contract. -/
theorem copyRecursively_clash : ∀ fuel, ClashAt (CopyRecursively fuel) := by
  intro fuel
  induction fuel with
  | zero =>
      intro fs sp dp fs2 _ _ rel c _ _ h
      rw [CopyRecursively] at h
      exact absurd h (by simp)
  | succ m ih =>
      intro fs sp dp fs2 hnodup hdisj rel c hreach hex h
      rw [CopyRecursively] at h
      cases rel with
      | nil => exact absurd rfl hreach.1
      | cons e rs =>
          have hmem : e ∈ fs.listDirectory sp := by
            apply mem_listDirectory
            cases rs with
            | nil =>
                rw [hreach.2.1]
                rfl
            | cons r rs2 =>
                have hm := hreach.2.2 1 (by
                  simp only [List.length_cons]
                  omega) (by omega)
                simp only [List.take_succ_cons, List.take_zero] at hm
                rw [hm]
                rfl
          exact copyEntries_clash (CopyRecursively m)
            (fun fsa spa dpa owa fsb hh => copyRecursively_good m fsa spa dpa owa fsb hh)
            ih sp dp hdisj (fs.listDirectory sp) fs fs2 hnodup e rs c hmem hreach hex h

/-- A confined effect never changes the source subtree of a disjoint pair. -/
theorem lookup_src_agree {fs g : FS} {sp dp : Path} (hg : GoodAt fs dp g)
    (hdisj : Disj sp dp) :
    ∀ rel, g.lookup (sp ++ rel) = fs.lookup (sp ++ rel) :=
  fun rel => hg.1 (sp ++ rel) (fun hc => disj_no_below hdisj rel hc.1)

/-- Nothing under the destination extends a source-side path. -/
theorem no_ext_below {src dst : Path} (hdisj : Disj src dst) (rel : Path) {q : Path}
    (hq : dst <+: q) : ¬ (src ++ rel) <+: q := by
  intro hc
  rcases List.prefix_or_prefix_of_prefix hc hq with h1 | h1
  · exact hdisj.1 ((List.prefix_append src rel).trans h1)
  · exact disj_no_below hdisj rel h1

/-- Writing a directory node creates no file. -/
theorem isFile_set_dir {g : FS} {p q : Path}
    (h : (g.set p Node.dir).isFile q = true) : g.isFile q = true := by
  by_cases hq : q = p
  · subst hq
    unfold FS.isFile at h
    rw [lookup_set_self] at h
    simp at h
  · unfold FS.isFile at h ⊢
    rw [lookup_set_ne g p _ q hq] at h
    exact h

/-- A file found after one file write is the written file or an old one. -/
theorem isFile_set_file {g : FS} {p q : Path} {c : String}
    (h : (g.set p (Node.file c)).isFile q = true) : q = p ∨ g.isFile q = true := by
  by_cases hq : q = p
  · exact Or.inl hq
  · right
    unfold FS.isFile at h ⊢
    rw [lookup_set_ne g p _ q hq] at h
    exact h

/-- `MkDir` succeeds whenever no file occupies the path. -/
theorem mkDir_succeeds {g : FS} {p : Path} (h : g.isFile p = false) :
    ∃ g0, g.mkDir p = .ok g0 ∧ (g0 = g.set p Node.dir ∨ g0 = g) := by
  unfold FS.mkDir
  cases hl : g.lookup p with
  | none => exact ⟨g.set p Node.dir, rfl, Or.inl rfl⟩
  | some n =>
      cases n with
      | dir => exact ⟨g, rfl, Or.inr rfl⟩
      | file c =>
          exfalso
          unfold FS.isFile at h
          rw [hl] at h
          simp at h

/-- Keys that never extend `p` do not survive the strict-extension filter. -/
theorem filter_nil_of_none {p : Path} (ex : List Path) (h : ∀ q ∈ ex, ¬ p <+: q) :
    ex.filter (fun k => decide (p <+: k ∧ k ≠ p)) = [] := by
  revert h
  induction ex with
  | nil =>
      intro _
      rfl
  | cons x xs ih =>
      intro h
      rw [List.filter_cons,
        if_neg (fun hc => h x (List.mem_cons_self x xs) (of_decide_eq_true hc).1)]
      exact ih (fun q hq => h q (List.mem_cons_of_mem x hq))

/-- Appending keys that sit elsewhere leaves the fuel measure unchanged. -/
theorem extCount_append_irrel {g fs : FS} {ex : List Path} {p : Path}
    (hk : g.keys = fs.keys ++ ex) (hex : ∀ q ∈ ex, ¬ p <+: q) :
    extCount g p = extCount fs p := by
  unfold extCount
  rw [hk, List.filter_append, filter_nil_of_none ex hex, List.append_nil]

/-- Descending into a stored child strictly shrinks the fuel measure. -/
theorem extCount_child_lt {fs : FS} {p : Path} {e : String}
    (hmem : (p ++ [e]) ∈ fs.keys) : extCount fs (p ++ [e]) < extCount fs p := by
  have hmono : ∀ l : List Path,
      (l.filter (fun k => decide ((p ++ [e]) <+: k ∧ k ≠ p ++ [e]))).length ≤
      (l.filter (fun k => decide (p <+: k ∧ k ≠ p))).length := by
    intro l
    induction l with
    | nil => exact Nat.le_refl 0
    | cons x xs ih =>
        rw [List.filter_cons, List.filter_cons]
        by_cases hx : decide ((p ++ [e]) <+: x ∧ x ≠ p ++ [e]) = true
        · rw [if_pos hx, if_pos (decide_eq_true (strictExt_child (of_decide_eq_true hx)))]
          simp only [List.length_cons]
          omega
        · rw [if_neg hx]
          by_cases hx2 : decide (p <+: x ∧ x ≠ p) = true
          · rw [if_pos hx2]
            simp only [List.length_cons]
            omega
          · rw [if_neg hx2]
            exact ih
  unfold extCount
  obtain ⟨l1, l2, hsplit⟩ := List.append_of_mem hmem
  rw [hsplit, List.filter_append, List.filter_append, List.filter_cons, List.filter_cons]
  rw [if_neg (fun hc => (of_decide_eq_true hc).2 rfl)]
  rw [if_pos (decide_eq_true (child_strictExt p e))]
  rw [List.length_append, List.length_append]
  simp only [List.length_cons]
  have h1 := hmono l1
  have h2 := hmono l2
  omega

/-- Bind in the error monad is associative. -/
theorem except_bind_assoc {a b c : Type} (x : Except Err a) (f : a → Except Err b)
    (g : b → Except Err c) :
    ((x >>= f) >>= g) = (x >>= fun u => f u >>= g) := by
  cases x <;> rfl

/-- The per-entry loop as one explicit step followed by the rest. -/
theorem copyEntries_cons_eq (rec : FS → Path → Path → Bool → Except Err FS)
    (src dst : Path) (ow : Bool) (g : FS) (a : String) (es : List String) :
    copyEntries rec src dst ow g (a :: es) =
      ((if g.isDirectory (src ++ [a]) = true
        then g.mkDir (dst ++ [a]) >>= fun g0 => rec g0 (src ++ [a]) (dst ++ [a]) ow
        else g.copy (src ++ [a]) (dst ++ [a]) ow) >>=
        fun g1 => copyEntries rec src dst ow g1 es) := by
  rw [copyEntries]
  by_cases hd : g.isDirectory (src ++ [a]) = true
  · rw [if_pos hd, if_pos hd, except_bind_assoc]
  · rw [if_neg hd, if_neg hd]

/-- Every listed child is stored. -/
theorem listDirectory_isSome {fs : FS} {p : Path} {e : String}
    (h : e ∈ fs.listDirectory p) : (fs.lookup (p ++ [e])).isSome = true := by
  unfold FS.listDirectory at h
  rcases List.mem_filterMap.mp h with ⟨k, hk, hke⟩
  have hkp := childOf_inj hke
  subst hkp
  exact (lookup_isSome_iff_mem_keys fs (p ++ [e])).mpr hk

/-- Composing the invariant with a child call confined below `dst ++ [a]`
that accounts for its files. -/
theorem fileProv_comp {fs g g2 : FS} {src dst : Path} {a : String}
    (hinv : CopyInv fs src dst g) (hdisj : Disj src dst)
    (hga : ∀ q, ¬ (dst ++ [a]) <+: q → g2.lookup q = g.lookup q)
    (hprov : FileProv g (src ++ [a]) (dst ++ [a]) g2) :
    FileProv fs src dst g2 := by
  intro rel hfile
  by_cases hb : (dst ++ [a]) <+: dst ++ rel
  · have hrel : [a] <+: rel := (List.prefix_append_right_inj dst).mp hb
    obtain ⟨t, ht⟩ := hrel
    subst ht
    have hfile2 : g2.isFile ((dst ++ [a]) ++ t) = true := by
      rw [List.append_assoc]
      exact hfile
    rcases hprov t hfile2 with hg | ⟨c, hc⟩
    · have hgf : g.isFile (dst ++ ([a] ++ t)) = true := by
        rw [← List.append_assoc]
        exact hg
      exact hinv.2 ([a] ++ t) hgf
    · right
      refine ⟨c, ?_⟩
      rw [← lookup_src_agree hinv.1 hdisj ([a] ++ t), ← List.append_assoc]
      exact hc
  · have hlq : g2.lookup (dst ++ rel) = g.lookup (dst ++ rel) := hga _ hb
    have hgf : g.isFile (dst ++ rel) = true := by
      unfold FS.isFile at hfile ⊢
      rw [← hlq]
      exact hfile
    exact hinv.2 rel hgf

/-- One entry of the overwriting loop succeeds and keeps the invariant. -/
theorem copyStep_inv (rec : FS → Path → Path → Bool → Except Err FS) (m : Nat)
    (hgood : ∀ g sp dp ow g2, rec g sp dp ow = .ok g2 → GoodAt g dp g2)
    (hsucc : ∀ g sp dp, NodupKeys g → Disj sp dp → MkCompat g sp dp →
        extCount g sp < m → ∃ g2, rec g sp dp true = .ok g2 ∧ FileProv g sp dp g2)
    {fs : FS} {src dst : Path} {a : String} {g : FS}
    (hnodup : NodupKeys fs) (hdisj : Disj src dst) (hcompat : MkCompat fs src dst)
    (hinv : CopyInv fs src dst g)
    (hsome : (fs.lookup (src ++ [a])).isSome = true)
    (hfuel : extCount fs (src ++ [a]) < m) :
    ∃ g1, (if g.isDirectory (src ++ [a]) = true
        then g.mkDir (dst ++ [a]) >>= fun g0 => rec g0 (src ++ [a]) (dst ++ [a]) true
        else g.copy (src ++ [a]) (dst ++ [a]) true) = .ok g1 ∧
      CopyInv fs src dst g1 := by
  have hag : ∀ rel, g.lookup (src ++ rel) = fs.lookup (src ++ rel) :=
    lookup_src_agree hinv.1 hdisj
  by_cases hd : g.isDirectory (src ++ [a]) = true
  · have hdfs : fs.isDirectory (src ++ [a]) = true := by
      unfold FS.isDirectory at hd ⊢
      rw [← hag [a]]
      exact hd
    have hnotfile : g.isFile (dst ++ [a]) = false := by
      by_cases hf : g.isFile (dst ++ [a]) = true
      · exfalso
        rcases hinv.2 [a] hf with hfsf | ⟨c, hc⟩
        · rw [hcompat [a] hdfs] at hfsf
          exact absurd hfsf (by simp)
        · unfold FS.isDirectory at hdfs
          rw [hc] at hdfs
          simp at hdfs
      · simpa using hf
    obtain ⟨g0, hmk, hg0⟩ := mkDir_succeeds hnotfile
    have hinv0 : CopyInv fs src dst g0 := by
      rcases hg0 with hset | hid
      · subst hset
        exact ⟨hinv.1.comp (goodAt_set (child_strictExt dst a)) (fun q hq => hq),
          fun rel hf => hinv.2 rel (isFile_set_dir hf)⟩
      · subst hid
        exact hinv
    have hnodup0 : NodupKeys g0 := hinv0.1.2.2 hnodup
    have hag0 : ∀ rel, g0.lookup (src ++ rel) = fs.lookup (src ++ rel) :=
      lookup_src_agree hinv0.1 hdisj
    have hcompat0 : MkCompat g0 (src ++ [a]) (dst ++ [a]) := by
      intro rel hdir
      have hdir2 : g0.isDirectory (src ++ ([a] ++ rel)) = true := by
        rw [← List.append_assoc]
        exact hdir
      have hdirfs : fs.isDirectory (src ++ ([a] ++ rel)) = true := by
        unfold FS.isDirectory at hdir2 ⊢
        rw [← hag0 ([a] ++ rel)]
        exact hdir2
      by_cases hf : g0.isFile ((dst ++ [a]) ++ rel) = true
      · exfalso
        have hf2 : g0.isFile (dst ++ ([a] ++ rel)) = true := by
          rw [← List.append_assoc]
          exact hf
        rcases hinv0.2 ([a] ++ rel) hf2 with hfsf | ⟨c, hc⟩
        · rw [hcompat ([a] ++ rel) hdirfs] at hfsf
          exact absurd hfsf (by simp)
        · unfold FS.isDirectory at hdirfs
          rw [hc] at hdirfs
          simp at hdirfs
      · simpa using hf
    obtain ⟨ex, hkeys, hexmem⟩ := hinv0.1.2.1
    have hfuel0 : extCount g0 (src ++ [a]) < m := by
      rw [extCount_append_irrel hkeys
        (fun q hq => no_ext_below hdisj [a] (hexmem q hq).1)]
      exact hfuel
    obtain ⟨g1, hrec, hprov⟩ :=
      hsucc g0 (src ++ [a]) (dst ++ [a]) hnodup0 (hdisj.child a) hcompat0 hfuel0
    refine ⟨g1, ?_, ?_, ?_⟩
    · rw [if_pos hd, hmk, bind_ok_eq]
      exact hrec
    · exact hinv0.1.comp (hgood _ _ _ _ _ hrec) (fun q hq => strictExt_child hq)
    · exact fileProv_comp hinv0 hdisj
        (fun q hq => (hgood _ _ _ _ _ hrec).1 q (fun hc => hq hc.1)) hprov
  · have hsome_g : (g.lookup (src ++ [a])).isSome = true := by
      rw [hag [a]]
      exact hsome
    obtain ⟨nd, hnd⟩ := Option.isSome_iff_exists.mp hsome_g
    cases nd with
    | dir =>
        exfalso
        apply hd
        unfold FS.isDirectory
        rw [hnd]
    | file c =>
        have hcopy : g.copy (src ++ [a]) (dst ++ [a]) true =
            .ok (g.set (dst ++ [a]) (Node.file c)) := by
          unfold FS.copy
          rw [hnd]
          exact if_neg (fun hc => hc.2 rfl)
        refine ⟨g.set (dst ++ [a]) (Node.file c), ?_, ?_, ?_⟩
        · rw [if_neg hd]
          exact hcopy
        · exact hinv.1.comp (goodAt_set (child_strictExt dst a)) (fun q hq => hq)
        · intro rel hfile
          rcases isFile_set_file hfile with heq | hgf
          · have hrel : rel = [a] := by
              have hdrop := congrArg (List.drop dst.length) heq
              rwa [List.drop_left, List.drop_left] at hdrop
            subst hrel
            right
            refine ⟨c, ?_⟩
            rw [← hag [a]]
            exact hnd
          · exact hinv.2 rel hgf

/-- The whole per-entry loop succeeds and keeps the invariant. -/
theorem copyEntries_success (rec : FS → Path → Path → Bool → Except Err FS) (m : Nat)
    (hgood : ∀ g sp dp ow g2, rec g sp dp ow = .ok g2 → GoodAt g dp g2)
    (hsucc : ∀ g sp dp, NodupKeys g → Disj sp dp → MkCompat g sp dp →
        extCount g sp < m → ∃ g2, rec g sp dp true = .ok g2 ∧ FileProv g sp dp g2)
    (fs : FS) (src dst : Path) (hnodup : NodupKeys fs) (hdisj : Disj src dst)
    (hcompat : MkCompat fs src dst) :
    ∀ es g, CopyInv fs src dst g →
      (∀ e ∈ es, (fs.lookup (src ++ [e])).isSome = true) →
      (∀ e ∈ es, extCount fs (src ++ [e]) < m) →
      ∃ g2, copyEntries rec src dst true g es = .ok g2 ∧ CopyInv fs src dst g2 := by
  intro es
  induction es with
  | nil =>
      intro g hinv _ _
      exact ⟨g, by rw [copyEntries], hinv⟩
  | cons a es ih =>
      intro g hinv hsome hfuel
      obtain ⟨g1, hstep, hinv1⟩ := copyStep_inv rec m hgood hsucc hnodup hdisj hcompat
        hinv (hsome a (List.mem_cons_self a es)) (hfuel a (List.mem_cons_self a es))
      obtain ⟨g2, hrest, hinv2⟩ := ih g1 hinv1
        (fun e he => hsome e (List.mem_cons_of_mem a he))
        (fun e he => hfuel e (List.mem_cons_of_mem a he))
      refine ⟨g2, ?_, hinv2⟩
      rw [copyEntries_cons_eq, hstep, bind_ok_eq]
      exact hrest

/-- With overwrite enabled, disjoint roots, unique keys, no file blocking a
directory creation, and enough fuel, the recursive copy succeeds, and every
file it leaves below the destination is accounted for. -/
theorem copyRecursively_success :
    ∀ m g sp dp, NodupKeys g → Disj sp dp → MkCompat g sp dp → extCount g sp < m →
      ∃ g2, CopyRecursively m g sp dp true = .ok g2 ∧ FileProv g sp dp g2 := by
  intro m
  induction m with
  | zero =>
      intro g sp dp _ _ _ hf
      exact absurd hf (by omega)
  | succ m ih =>
      intro g sp dp hnodup hdisj hcompat hfuel
      have hsome : ∀ e ∈ g.listDirectory sp, (g.lookup (sp ++ [e])).isSome = true :=
        fun e he => listDirectory_isSome he
      have hchild : ∀ e ∈ g.listDirectory sp, extCount g (sp ++ [e]) < m := by
        intro e he
        have h1 : (sp ++ [e]) ∈ g.keys :=
          (lookup_isSome_iff_mem_keys g (sp ++ [e])).mp (listDirectory_isSome he)
        have h2 := extCount_child_lt h1
        omega
      obtain ⟨g2, hok, hinv2⟩ := copyEntries_success (CopyRecursively m) m
        (fun ga spa dpa owa gb hh => copyRecursively_good m ga spa dpa owa gb hh)
        ih g sp dp hnodup hdisj hcompat (g.listDirectory sp) g
        ⟨GoodAt.refl g dp, fun rel hf => Or.inl hf⟩ hsome hchild
      refine ⟨g2, ?_, hinv2.2⟩
      rw [CopyRecursively]
      exact hok

/-- A bounded check implying `MkCompat`: it is enough to look at the stored
keys extending `src`. -/
theorem mkCompat_of_keys {fs : FS} {src dst : Path}
    (h : ∀ k ∈ fs.keys, src <+: k → fs.isFile (dst ++ k.drop src.length) = false) :
    MkCompat fs src dst := by
  intro rel hdir
  have hk : (src ++ rel) ∈ fs.keys := by
    rw [← lookup_isSome_iff_mem_keys]
    unfold FS.isDirectory at hdir
    cases hl : fs.lookup (src ++ rel) with
    | none =>
        rw [hl] at hdir
        simp at hdir
    | some n => rfl
  have hinst := h (src ++ rel) hk (List.prefix_append src rel)
  rwa [List.drop_left] at hinst

/-- C8: `CopyRecursively` processes the entries of `src` in listing order —
each directory entry is `MkDir`-ed at the corresponding destination path
(created when absent, kept when already a directory) and recursed into, and
each file entry is copied honoring the overwrite flag; every node reachable
in the source tree reappears at the corresponding destination path of a
successful copy, so copied file contents equal the source contents; with
overwrite disabled the copy fails whenever the destination path of a
reachable source file already exists; and with overwrite enabled (unique
keys, disjoint roots, no file blocking a directory creation, enough fuel)
the copy succeeds. -/
theorem claimC8 :
    (∀ fuel fs src dst ow,
      CopyRecursively (fuel + 1) fs src dst ow =
        copyEntries (CopyRecursively fuel) src dst ow fs (fs.listDirectory src)) ∧
    (∀ (rec : FS → Path → Path → Bool → Except Err FS) src dst ow (g : FS) a es,
      copyEntries rec src dst ow g (a :: es) =
        ((if g.isDirectory (src ++ [a]) = true
          then g.mkDir (dst ++ [a]) >>= fun g0 => rec g0 (src ++ [a]) (dst ++ [a]) ow
          else g.copy (src ++ [a]) (dst ++ [a]) ow) >>=
          fun g1 => copyEntries rec src dst ow g1 es)) ∧
    (∀ fuel fs src dst ow fs2, NodupKeys fs → Disj src dst →
      CopyRecursively fuel fs src dst ow = .ok fs2 →
      ∀ rel n, ReachNode fs src rel n → fs2.lookup (dst ++ rel) = some n) ∧
    (∀ fuel fs src dst fs2, NodupKeys fs → Disj src dst →
      ∀ rel c, ReachNode fs src rel (Node.file c) →
        fs.pathExists (dst ++ rel) = true →
        CopyRecursively fuel fs src dst false ≠ .ok fs2) ∧
    (∀ fuel fs src dst, NodupKeys fs → Disj src dst → MkCompat fs src dst →
      extCount fs src < fuel →
      ∃ fs2, CopyRecursively fuel fs src dst true = .ok fs2 ∧
        ∀ rel c, ReachNode fs src rel (Node.file c) →
          fs2.lookup (dst ++ rel) = some (Node.file c)) := by
  refine ⟨?_, ?_, ?_, ?_, ?_⟩
  · intro fuel fs src dst ow
    rw [CopyRecursively]
  · intro rec src dst ow g a es
    exact copyEntries_cons_eq rec src dst ow g a es
  · exact fun fuel => copyRecursively_mirror fuel
  · exact fun fuel => copyRecursively_clash fuel
  · intro fuel fs src dst hnodup hdisj hcompat hfuel
    obtain ⟨fs2, hok, _⟩ := copyRecursively_success fuel fs src dst hnodup hdisj hcompat hfuel
    exact ⟨fs2, hok, fun rel c hreach =>
      copyRecursively_mirror fuel fs src dst true fs2 hnodup hdisj hok rel
        (Node.file c) hreach⟩

/-- Witness for C8: on the concrete store the overwriting copy of `s` into
`d` succeeds and mirrors both files and the subdirectory, and the
non-overwriting copy of `s` into the occupied `d2` fails. -/
theorem claimC8_witness :
    (∃ fs2, CopyRecursively 8 c8FS ["s"] ["d"] true = .ok fs2 ∧
      fs2.lookup ["d", "a"] = some (Node.file "x") ∧
      fs2.lookup ["d", "sub"] = some Node.dir ∧
      fs2.lookup ["d", "sub", "b"] = some (Node.file "y")) ∧
    CopyRecursively 8 c8FS ["s"] ["d2"] false ≠ .ok c8FS := by
  constructor
  · obtain ⟨fs2, hok, hcontent⟩ :=
      claimC8.2.2.2.2 8 c8FS ["s"] ["d"] (by decide) (by decide)
        (mkCompat_of_keys (by decide)) (by decide)
    have hmir := claimC8.2.2.1 8 c8FS ["s"] ["d"] true fs2 (by decide) (by decide) hok
    exact ⟨fs2, hok, hcontent ["a"] "x" (by decide),
      hmir ["sub"] Node.dir (by decide), hcontent ["sub", "b"] "y" (by decide)⟩
  · exact claimC8.2.2.2.1 8 c8FS ["s"] ["d2"] c8FS (by decide) (by decide) ["a"] "x"
      (by decide) (by decide)

end TemplateRelease
